import Mathlib

/-!
Verification of the exmex expression-evaluation crate (tokenizer, flattener,
priority-ordered evaluator, constant folding, partial-derivative helpers).

The definitions below are a shallow embedding of the Rust sources:
* `src/expression.rs` — `FlatEx`, `DeepEx`, `flatten_vecs`, `flatten`,
  `prioritized_indices(_flat)`, `FlatEx::eval`, `DeepEx::compile`,
  `DeepEx::new`, `DeepEx::operate_bin`, `FlatEx::clear_deepex`;
* `src/parser.rs` — `is_numeric_text`;
* `src/expression/partial_derivatives.rs` — `pow_num`.

Modelling conventions:
* Rust `SmallVec`/`Vec` become `List`; machine indices become `Nat`;
  the `i32` operator priority becomes `Int` (integer-overflow/stack-overflow
  behaviour of astronomically deep inputs is out of scope of the claims).
* A Rust panic (out-of-bounds index, `unwrap` of `None`) is modelled
  explicitly: `FlatEx.eval` returns `EvalResult.panic`, `operate_bin`
  returns `none`.  Functions that can only panic on inputs that violate
  the structural invariant `nodes.length = ops.length + 1` (and are only
  ever called by the crate on inputs satisfying it) are totalised with a
  benign default in the unreachable branch; every theorem about them
  carries the invariant as a hypothesis.
* `operators.rs` and `expression/deep.rs` are not part of the given
  sources; the entities taken from them (`UnaryOp`, `Operator`, the
  `DeepEx` constructors used by the differentiator) are modelled from the
  specification and are marked `Modelled from the spec:` below.
-/

namespace Exmex

/-- Error type of the crate (`ExParseError` in `src/parser.rs`): a single
error kind carrying a human-readable message. -/
structure ExParseError where
  msg : String
  deriving DecidableEq, Repr

/-- Modelled from the spec: `BinOp` (from `operators.rs`, absent from `src/`):
a binary operator is a function of two values plus an integer priority. -/
structure BinOp (T : Type) where
  apply : T → T → T
  prio : Int

/-- Modelled from the spec: the composed unary operator (`UnaryOp` from
`operators.rs`, absent from `src/`) is an ordered list of unary functions;
`apply` computes `first (second (... (value)))`, i.e. the head of the list
is applied last (outermost). -/
def applyUnary {T : Type} (ops : List (T → T)) (v : T) : T :=
  ops.foldr (fun f a => f a) v

/-- Modelled from the spec: `UnaryOp::append_front` puts the other composed
unary in front of `self`, so that it fires after everything already
present (the head of the list is outermost). -/
def appendFront {T : Type} (self other : List (T → T)) : List (T → T) :=
  other ++ self

/-- Modelled from the spec: an operator record (`Operator` from
`operators.rs`, absent from `src/`): a repr string, an optional binary
form and an optional unary form. -/
structure Operator (T : Type) where
  repr : String
  bin_op : Option (BinOp T)
  unary_op : Option (T → T)

/-- `OverloadedOps` (`src/expression.rs`): the five arithmetic operators
looked up by repr. -/
structure OverloadedOps (T : Type) where
  add : Operator T
  sub : Operator T
  mul : Operator T
  div : Operator T
  pow : Operator T

/-- `OverloadedOps::by_repr` (`src/expression.rs`).  The source panics on
an unknown repr; the panic is modelled as `none`. -/
def OverloadedOps.by_repr {T : Type} (oo : OverloadedOps T) (r : String) :
    Option (Operator T) :=
  if r = "+" then some oo.add
  else if r = "-" then some oo.sub
  else if r = "*" then some oo.mul
  else if r = "/" then some oo.div
  else if r = "^" then some oo.pow
  else none

/-- `FlatNodeKind` (`src/expression.rs`): a flat node is a literal number
or a variable slot index. -/
inductive FlatNodeKind (T : Type) where
  | Num : T → FlatNodeKind T
  | Var : Nat → FlatNodeKind T

/-- `FlatNode` (`src/expression.rs`): a flat node with its own composed
unary operator. -/
structure FlatNode (T : Type) where
  kind : FlatNodeKind T
  unary_op : List (T → T)

/-- `FlatNode::from_kind` (`src/expression.rs`). -/
def FlatNode.from_kind {T : Type} (kind : FlatNodeKind T) : FlatNode T :=
  { kind := kind, unary_op := [] }

/-- `FlatOp` (`src/expression.rs`): a binary operation together with an
optional composed unary operation executed right after it. -/
structure FlatOp (T : Type) where
  unary_op : List (T → T)
  bin_op : BinOp T

/-- `BinOpsWithReprs` (`src/expression.rs`). -/
structure BinOpsWithReprs (T : Type) where
  reprs : List String
  ops : List (BinOp T)

/-- `UnaryOpWithReprs` (`src/expression.rs`). -/
structure UnaryOpWithReprs (T : Type) where
  reprs : List String
  op : List (T → T)

mutual
/-- `DeepNode` (`src/expression.rs`): number, variable, or nested
subexpression. -/
inductive DeepNode (T : Type) : Type where
  | Num : T → DeepNode T
  | Var : Nat → DeepNode T
  | Expr : DeepEx T → DeepNode T

/-- `DeepEx` (`src/expression.rs`): nodes, binary operators, the level's
composed unary operator, the cached priority order and the optional
overloaded-arithmetic table. -/
inductive DeepEx (T : Type) : Type where
  | mk : List (DeepNode T) → BinOpsWithReprs T → UnaryOpWithReprs T →
      List Nat → Option (OverloadedOps T) → DeepEx T
end

/-- Field accessor for `DeepEx.nodes`. -/
def DeepEx.nodes {T : Type} : DeepEx T → List (DeepNode T)
  | .mk n _ _ _ _ => n

/-- Field accessor for `DeepEx.bin_ops`. -/
def DeepEx.bin_ops {T : Type} : DeepEx T → BinOpsWithReprs T
  | .mk _ b _ _ _ => b

/-- Field accessor for `DeepEx.unary_op`. -/
def DeepEx.unary_op {T : Type} : DeepEx T → UnaryOpWithReprs T
  | .mk _ _ u _ _ => u

/-- Field accessor for `DeepEx.prio_indices`. -/
def DeepEx.prio_indices {T : Type} : DeepEx T → List Nat
  | .mk _ _ _ p _ => p

/-- Field accessor for `DeepEx.overloaded_ops`. -/
def DeepEx.overloaded_ops {T : Type} : DeepEx T → Option (OverloadedOps T)
  | .mk _ _ _ _ o => o

/-- `FlatEx` (`src/expression.rs`): the flattened expression. -/
structure FlatEx (T : Type) where
  nodes : List (FlatNode T)
  ops : List (FlatOp T)
  prio_indices : List Nat
  n_unique_vars : Nat
  deepex : Option (DeepEx T)

/-! ### The shared stable priority sort

`prioritized_indices` and `prioritized_indices_flat` both sort the operator
indices with Rust's stable `sort_by` using the comparator
`prio(i2).cmp(prio(i1))` (descending by key).  A stable descending sort is
the unique permutation that is sorted w.r.t. the total order
"greater key, or equal key and smaller original position"; we therefore
embed the Rust sort as `List.insertionSort` with exactly that total
order. -/

/-- The total order realised by Rust's stable descending `sort_by`:
strictly greater key first, ties by original (ascending) position. -/
def keyOrder (key : Nat → Int) (i j : Nat) : Prop :=
  key j < key i ∨ (key i = key j ∧ i ≤ j)

instance keyOrder.decidable (key : Nat → Int) : DecidableRel (keyOrder key) :=
  fun _ _ => inferInstanceAs (Decidable (_ ∨ _))

/-- Stable sort of `[0, …, n-1]`, descending by `key`, ties by position. -/
def stableDescSort (key : Nat → Int) (n : Nat) : List Nat :=
  (List.range n).insertionSort (keyOrder key)

instance keyOrder.total (key : Nat → Int) : IsTotal Nat (keyOrder key) :=
  ⟨fun i j => by unfold keyOrder; omega⟩

instance keyOrder.trans (key : Nat → Int) : IsTrans Nat (keyOrder key) :=
  ⟨fun i j k h1 h2 => by unfold keyOrder at *; omega⟩

instance keyOrder.antisymm (key : Nat → Int) : IsAntisymm Nat (keyOrder key) :=
  ⟨fun i j h1 h2 => by unfold keyOrder at *; omega⟩

/-- The sort key of `prioritized_indices_flat` (`src/expression.rs`):
`prio * 10`, plus `5` when both adjacent nodes are literal numbers.
List indexing is totalised with `get?`; all uses stay in range when
`nodes.length = ops.length + 1`. -/
def flatKey {T : Type} (ops : List (FlatOp T)) (nodes : List (FlatNode T))
    (i : Nat) : Int :=
  let prio : Int :=
    match ops.get? i with
    | some o => o.bin_op.prio
    | none => 0
  match nodes.get? i, nodes.get? (i + 1) with
  | some n1, some n2 =>
    match n1.kind, n2.kind with
    | .Num _, .Num _ => prio * 10 + 5
    | _, _ => prio * 10
  | _, _ => prio * 10

/-- The sort key of `prioritized_indices` (`src/expression.rs`), same rule
over deep nodes. -/
def deepKey {T : Type} (bin_ops : List (BinOp T)) (nodes : List (DeepNode T))
    (i : Nat) : Int :=
  let prio : Int :=
    match bin_ops.get? i with
    | some o => o.prio
    | none => 0
  match nodes.get? i, nodes.get? (i + 1) with
  | some (DeepNode.Num _), some (DeepNode.Num _) => prio * 10 + 5
  | _, _ => prio * 10

/-- `prioritized_indices_flat` (`src/expression.rs`). -/
def prioritized_indices_flat {T : Type} (ops : List (FlatOp T))
    (nodes : List (FlatNode T)) : List Nat :=
  stableDescSort (flatKey ops nodes) ops.length

/-- `prioritized_indices` (`src/expression.rs`). -/
def prioritized_indices {T : Type} (bin_ops : List (BinOp T))
    (nodes : List (DeepNode T)) : List Nat :=
  stableDescSort (deepKey bin_ops nodes) bin_ops.length

/-! ### The evaluator (`FlatEx::eval`, `src/expression.rs`)

The source allocates a *fixed-size* `ignore` buffer of
`N_NODES_ON_STACK = 32` booleans and indexes `ignore`, `numbers`, `vars`
and `self.ops` with unchecked `[]`.  Every such access is modelled by a
checked access whose failure is a Rust panic; the result type
`EvalResult` distinguishes a panic from a returned typed error. -/

/-- `N_NODES_ON_STACK` (`src/expression.rs`). -/
def N_NODES_ON_STACK : Nat := 32

/-- Result of running `FlatEx::eval`: a Rust panic, a returned
`ExParseError`, or a value. -/
inductive EvalResult (T : Type) where
  | panic : EvalResult T
  | err : String → EvalResult T
  | ok : T → EvalResult T
  deriving DecidableEq

/-- The left scan of `FlatEx::eval` (`while ignore[num_idx - shift_left]`):
starting at `j`, move left past `true` entries; `none` models the panic
on an out-of-range read (or the underflow of `num_idx - shift_left` at
position `0`). -/
def scanLeft (ign : List Bool) : Nat → Option Nat
  | 0 =>
    match ign.get? 0 with
    | none => none
    | some b => if b then none else some 0
  | j + 1 =>
    match ign.get? (j + 1) with
    | none => none
    | some b => if b then scanLeft ign j else some (j + 1)

/-- Worker of the right scan: scan the suffix of the buffer starting at
position `j`, keeping track of the absolute position. -/
def scanRightAux : List Bool → Nat → Option Nat
  | [], _ => none
  | b :: rest, j => if b then scanRightAux rest (j + 1) else some j

/-- The right scan of `FlatEx::eval` (`while ignore[num_idx + shift_right]`):
starting at `j`, move right past `true` entries; `none` models the panic
on an out-of-range read. -/
def scanRight (ign : List Bool) (j : Nat) : Option Nat :=
  scanRightAux (ign.drop j) j

/-- The reduction loop of `FlatEx::eval`: for each operator index (in
priority order) locate the nearest unconsumed slots left and right, apply
the binary operator and its trailing unary, store left, mark right
consumed.  `none` models a panic. -/
def evalLoop {T : Type} (ops : List (FlatOp T)) :
    List T → List Bool → List Nat → Option (List T)
  | numbers, _, [] => some numbers
  | numbers, ign, bin_op_idx :: rest =>
    let num_idx := bin_op_idx
    match scanLeft ign num_idx, scanRight ign (num_idx + 1) with
    | some li, some ri =>
      match numbers.get? li, numbers.get? ri, ops.get? bin_op_idx with
      | some a, some c, some fop =>
        let v := applyUnary fop.unary_op (fop.bin_op.apply a c)
        evalLoop ops (numbers.set li v) (ign.set ri true) rest
      | _, _, _ => none
    | _, _ => none

/-- The `numbers` array built at the start of `FlatEx::eval`: each node's
composed unary applied to its literal or substituted value.  `none`
models the panic of `vars[idx]` on an out-of-range variable index. -/
def evalNumbers {T : Type} (nodes : List (FlatNode T)) (vars : List T) :
    Option (List T) :=
  nodes.mapM fun node =>
    match node.kind with
    | .Num n => some (applyUnary node.unary_op n)
    | .Var idx => (vars.get? idx).map (applyUnary node.unary_op)

/-- `FlatEx::eval` (`src/expression.rs`). -/
def FlatEx.eval {T : Type} (e : FlatEx T) (vars : List T) : EvalResult T :=
  if e.n_unique_vars ≠ vars.length then
    .err ("parsed expression contains " ++ toString e.n_unique_vars ++
      " vars but passed slice has " ++ toString vars.length ++ " elements")
  else
    match evalNumbers e.nodes vars with
    | none => .panic
    | some numbers =>
      match evalLoop e.ops numbers (List.replicate N_NODES_ON_STACK false)
          e.prio_indices with
      | none => .panic
      | some numbers' =>
        match numbers'.get? 0 with
        | none => .panic
        | some v => .ok v

/-- `FlatEx::clear_deepex` (`src/expression.rs`). -/
def FlatEx.clear_deepex {T : Type} (e : FlatEx T) : FlatEx T :=
  { e with deepex := none }

/-! ### The flattener (`flatten_vecs` / `flatten`, `src/expression.rs`) -/

/-- The operator chosen by
`flat_ops.iter_mut().rev().min_by_key(|op| op.bin_op.prio)`:
the first minimum of the reversed iterator, i.e. the *last* index of the
vector attaining the minimal priority.  Returns `0` for an empty list
(the source only calls this on a nonempty one). -/
def lastMinPrioIdx {T : Type} (ops : List (FlatOp T)) : Nat :=
  (ops.enum.foldl
    (fun acc p =>
      match acc with
      | none => some p
      | some q => if p.2.bin_op.prio ≤ q.2.bin_op.prio then some p else some q)
    none).elim 0 Prod.fst

/-- Replace the element at index `k` by `f` of it (no-op when out of
range). -/
def modifyIdx {α : Type} (l : List α) (k : Nat) (f : α → α) : List α :=
  match l.get? k with
  | some a => l.set k (f a)
  | none => l

/-- Tail of `flatten_vecs`: if the level has a composed unary operator,
relocate it onto the last lowest-priority binary operator of the level,
or onto the first flat node when the level has no operators.  The source
indexes `flat_nodes[0]`, which panics on an empty node list; that branch
is totalised as a no-op (a `DeepEx` respecting the node/operator
invariant always flattens to at least one node). -/
def relocateUnary {T : Type} (uop : List (T → T))
    (nodes : List (FlatNode T)) (ops : List (FlatOp T)) :
    List (FlatNode T) × List (FlatOp T) :=
  if 0 < uop.length then
    if 0 < ops.length then
      (nodes, modifyIdx ops (lastMinPrioIdx ops)
        (fun o => { o with unary_op := appendFront o.unary_op uop }))
    else
      match nodes with
      | [] => (nodes, ops)
      | n :: rest =>
        ({ n with unary_op := appendFront n.unary_op uop } :: rest, ops)
  else (nodes, ops)

/-- The (at most one) binary operator emitted after the current node by
`flatten_vecs`: the head of the remaining operator list with its
priority increased by the offset, or nothing when the operators are
exhausted (`node_idx < bin_ops.ops.len()`). -/
def adaptHeadOp {T : Type} (ops : List (BinOp T)) (prio_offset : Int) :
    List (FlatOp T) :=
  match ops with
  | o :: _ =>
    [{ unary_op := [],
       bin_op := { apply := o.apply, prio := o.prio + prio_offset } }]
  | [] => []

mutual
/-- `flatten_vecs` (`src/expression.rs`): inline every subexpression,
adding `100` to binary-operator priorities per nesting level, then
relocate the level's composed unary operator. -/
def flattenVecs {T : Type} (deep_expr : DeepEx T) (prio_offset : Int) :
    List (FlatNode T) × List (FlatOp T) :=
  match deep_expr with
  | .mk nodes bin_ops uop _ _ =>
    let p := flattenNodes nodes bin_ops.ops prio_offset
    relocateUnary uop.op p.1 p.2

/-- The flat form of one node in `flatten_vecs`'s loop: numbers and
variables become one flat node, subexpressions are flattened with the
offset increased by `100`. -/
def flattenNode {T : Type} (n : DeepNode T) (prio_offset : Int) :
    List (FlatNode T) × List (FlatOp T) :=
  match n with
  | .Num num => ([FlatNode.from_kind (.Num num)], [])
  | .Var idx => ([FlatNode.from_kind (.Var idx)], [])
  | .Expr e => flattenVecs e (prio_offset + 100)

/-- Loop body of `flatten_vecs`: emit each node's flat form followed (for
the `i`-th node with `i < ops.length`) by the `i`-th binary operator with
its priority increased by the offset. -/
def flattenNodes {T : Type} (nodes : List (DeepNode T)) (ops : List (BinOp T))
    (prio_offset : Int) : List (FlatNode T) × List (FlatOp T) :=
  match nodes with
  | [] => ([], [])
  | n :: rest =>
    let here := flattenNode n prio_offset
    let restPair := flattenNodes rest ops.tail prio_offset
    (here.1 ++ restPair.1, here.2 ++ adaptHeadOp ops prio_offset ++ restPair.2)
end

/-- The first-seen scan over the flat nodes that `flatten` uses to count
distinct variables. -/
def collectVars {T : Type} : List (FlatNode T) → List Nat → List Nat
  | [], found => found
  | n :: rest, found =>
    match n.kind with
    | .Var idx =>
      if idx ∈ found then collectVars rest found
      else collectVars rest (found ++ [idx])
    | .Num _ => collectVars rest found

/-- `flatten` (`src/expression.rs`). -/
def flatten {T : Type} (deepex : DeepEx T) : FlatEx T :=
  let p := flattenVecs deepex 0
  { nodes := p.1
    ops := p.2
    prio_indices := prioritized_indices_flat p.2 p.1
    n_unique_vars := (collectVars p.1 []).length
    deepex := some deepex }

/-! ### Constant folding (`DeepEx::compile`, `src/expression.rs`) -/

/-- First phase of `compile`: replace every node that is a subexpression
containing exactly one literal number by that number. -/
def phaseA {T : Type} (nodes : List (DeepNode T)) : List (DeepNode T) :=
  nodes.map fun n =>
    match n with
    | .Expr e =>
      match e.nodes with
      | [DeepNode.Num m] => .Num m
      | _ => n
    | _ => n

/-- The folding loop of `compile`, with the remaining (operator index,
node position) pairs returned for analysis.  Each step looks at the pair
of nodes at the current position: if both are literal numbers it applies
the operator, stores the result at the left slot, removes the right slot,
shifts the positions of the remaining pairs and records the operator
index as used; otherwise the loop breaks.  Node indexing is totalised by
`get?` (the source's unchecked indexing stays in range whenever
`nodes.length = ops.length + 1`, see the invariant lemmas). -/
def foldLoopGo {T : Type} (ops : List (BinOp T)) :
    Nat → List (DeepNode T) → List (Nat × Nat) → List Nat →
    List (DeepNode T) × List (Nat × Nat) × List Nat
  | _, nodes, [], used => (nodes, [], used)
  | 0, nodes, pairs, used => (nodes, pairs, used)
  | fuel + 1, nodes, (b, k) :: rest, used =>
    match nodes.get? k, nodes.get? (k + 1) with
    | some (DeepNode.Num a), some (DeepNode.Num c) =>
      let r : T :=
        match ops.get? b with
        | some o => o.apply a c
        | none => a
      foldLoopGo ops fuel ((nodes.set k (DeepNode.Num r)).eraseIdx (k + 1))
        (rest.map fun p => (p.1, if k < p.2 then p.2 - 1 else p.2))
        (used ++ [b])
    | _, _ => (nodes, (b, k) :: rest, used)

/-- The folding loop of `compile` (see `foldLoopGo`).  The fuel argument
is the pair-list length, so the fuel-exhaustion branch of `foldLoopGo`
is never taken (each step consumes one pair and one unit of fuel): the
function behaves exactly like the source's `for` loop. -/
def foldLoopFull {T : Type} (ops : List (BinOp T)) (nodes : List (DeepNode T))
    (pairs : List (Nat × Nat)) (used : List Nat) :
    List (DeepNode T) × List (Nat × Nat) × List Nat :=
  foldLoopGo ops pairs.length nodes pairs used

/-- `self.bin_ops.ops.iter().enumerate().filter(|(i, _)| !used.contains(i)).map(...)`,
with an explicit running index. -/
def filterByIdxFrom {α : Type} (p : Nat → Bool) : Nat → List α → List α
  | _, [] => []
  | i, a :: rest =>
    if p i then a :: filterByIdxFrom p (i + 1) rest
    else filterByIdxFrom p (i + 1) rest

/-- Keep the elements whose index satisfies `p`. -/
def filterByIdx {α : Type} (l : List α) (p : Nat → Bool) : List α :=
  filterByIdxFrom p 0 l

/-- `DeepEx::compile` (`src/expression.rs`): convert single-number
subexpressions to numbers, re-sort the priority order, fold literal
pairs in priority order until the first non-literal pair, drop the used
operators, apply the pending unary if a single number remains, and
recompute the priority order. -/
def compile {T : Type} (x : DeepEx T) : DeepEx T :=
  match x with
  | .mk nodes0 bin_ops uop _ ovl =>
    let nodes1 := phaseA nodes0
    let prios1 := prioritized_indices bin_ops.ops nodes1
    let res := foldLoopFull bin_ops.ops nodes1 (prios1.zip prios1) []
    let nodes2 := res.1
    let used := res.2.2
    let ops2 := filterByIdx bin_ops.ops (fun i => decide (i ∉ used))
    let fin : List (DeepNode T) × UnaryOpWithReprs T :=
      match nodes2 with
      | [DeepNode.Num n] =>
        ([DeepNode.Num (applyUnary uop.op n)], { reprs := [], op := [] })
      | _ => (nodes2, uop)
    DeepEx.mk fin.1 { reprs := bin_ops.reprs, ops := ops2 } fin.2
      (prioritized_indices ops2 fin.1) ovl

/-- `DeepEx::new` (`src/expression.rs`): reject a node/operator count
mismatch, otherwise build the expression and immediately compile it. -/
def DeepEx.new {T : Type} (nodes : List (DeepNode T))
    (bin_ops : BinOpsWithReprs T) (unary_op : UnaryOpWithReprs T) :
    Except ExParseError (DeepEx T) :=
  if nodes.length ≠ bin_ops.ops.length + 1 then
    .error ⟨"mismatch between number of nodes and binary operators"⟩
  else
    .ok (compile (DeepEx.mk nodes bin_ops unary_op
      (prioritized_indices bin_ops.ops nodes) none))

/-- `DeepEx::set_overloaded_ops` (`src/expression.rs`). -/
def DeepEx.set_overloaded_ops {T : Type} (e : DeepEx T)
    (oo : OverloadedOps T) : DeepEx T :=
  match e with
  | .mk nodes bin_ops uop prios _ => .mk nodes bin_ops uop prios (some oo)

/-- `DeepEx::operate_bin` (`src/expression.rs`): combine two expressions
with an overloaded arithmetic operator.  The source panics when the
overloaded operators are absent, when the repr is unknown, or when the
operator has no binary form; each panic is modelled as `none`. -/
def operate_bin {T : Type} (self other : DeepEx T) (r : String) :
    Option (DeepEx T) :=
  match self.overloaded_ops with
  | none => none
  | some oo =>
    match oo.by_repr r with
    | none => none
    | some op =>
      match op.bin_op with
      | none => none
      | some bo =>
        match DeepEx.new [DeepNode.Expr self, DeepNode.Expr other]
            { reprs := ["+"], ops := [bo] } { reprs := [], op := [] } with
        | .error _ => none
        | .ok resex => some (compile (resex.set_overloaded_ops oo))

/-! ### Reference semantics: the direct recursive tree-walk

`evalDeepSpec` follows the specification's words for the naive recursive
evaluation an expression tree (spec §4.5/§8): at each level, evaluate
every node (recursing into subexpressions), then apply the binary
operators in the shared priority order (merging `node[i]` and
`node[i+1]` into the slot of `node[i]`, with real removal of the right
slot), then apply the level's composed unary operator.  This is the
reference side of the refinement claim about `flatten`/`eval`. -/

/-- Reduce a value list by the operators in the given (operator index,
position) order, removing the consumed right slot and shifting the
positions of the remaining pairs — the "real array removal" reduction
strategy of spec §4.5. -/
def reduceSpecGo {T : Type} [Inhabited T] (ops : List (BinOp T)) :
    Nat → List T → List (Nat × Nat) → List T
  | _, vals, [] => vals
  | 0, vals, _ => vals
  | fuel + 1, vals, (b, k) :: rest =>
    let a := vals.getD k default
    let c := vals.getD (k + 1) default
    let r : T :=
      match ops.get? b with
      | some o => o.apply a c
      | none => a
    reduceSpecGo ops fuel ((vals.set k r).eraseIdx (k + 1))
      (rest.map fun p => (p.1, if k < p.2 then p.2 - 1 else p.2))

/-- Priority-ordered reduction with real removal (see `reduceSpecGo`; the
fuel equals the pair-list length, so the fuel-exhaustion branch is never
taken). -/
def reduceSpec {T : Type} [Inhabited T] (ops : List (BinOp T))
    (vals : List T) (pairs : List (Nat × Nat)) : List T :=
  reduceSpecGo ops pairs.length vals pairs

mutual
/-- The direct recursive tree-walk evaluation of a nested expression
(reference semantics written from the spec, see above). -/
def evalDeepSpec {T : Type} [Inhabited T] : DeepEx T → List T → T
  | .mk nodes bin_ops uop _ _, vars =>
    let vals := evalDeepNodes nodes vars
    let p := prioritized_indices bin_ops.ops nodes
    applyUnary uop.op ((reduceSpec bin_ops.ops vals (p.zip p)).headD default)

/-- Evaluate each node of a level (tree-walk reference semantics). -/
def evalDeepNodes {T : Type} [Inhabited T] :
    List (DeepNode T) → List T → List T
  | [], _ => []
  | n :: rest, vars => evalDeepNode n vars :: evalDeepNodes rest vars

/-- Evaluate one node (tree-walk reference semantics). -/
def evalDeepNode {T : Type} [Inhabited T] : DeepNode T → List T → T
  | .Num n, _ => n
  | .Var i, vars => vars.getD i default
  | .Expr e, vars => evalDeepSpec e vars
end

/-! ### Depth-annotated flattening (for the priority-offset claim)

`opDepthPrios` mirrors the operator output of `flatten_vecs` but records,
for every emitted binary operator, its adapted priority together with the
nesting depth of the level it originated from. -/

/-- Depth annotation of the operator emitted by `adaptHeadOp`. -/
def headOpDepth {T : Type} (ops : List (BinOp T)) (off : Int) (d : Nat) :
    List (Int × Nat) :=
  match ops with
  | o :: _ => [(o.prio + off, d)]
  | [] => []

mutual
/-- Adapted priority and origin depth of every binary operator emitted by
`flatten_vecs` on this expression, in emission order. -/
def opDepthPrios {T : Type} (e : DeepEx T) (off : Int) (d : Nat) :
    List (Int × Nat) :=
  match e with
  | .mk nodes bin_ops _ _ _ => opDepthPriosNodes nodes bin_ops.ops off d

/-- Single-node worker of `opDepthPrios`, mirroring `flattenNode`. -/
def opDepthPriosNode {T : Type} (n : DeepNode T) (off : Int) (d : Nat) :
    List (Int × Nat) :=
  match n with
  | .Expr e => opDepthPrios e (off + 100) (d + 1)
  | _ => []

/-- Node-list worker of `opDepthPrios`, mirroring `flattenNodes`. -/
def opDepthPriosNodes {T : Type} :
    List (DeepNode T) → List (BinOp T) → Int → Nat → List (Int × Nat)
  | [], _, _, _ => []
  | n :: rest, ops, off, d =>
    opDepthPriosNode n off d ++ headOpDepth ops off d ++
      opDepthPriosNodes rest ops.tail off d
end

/-- All binary-operator priorities of the tree, at every nesting level,
lie in `[0, 100)` — the regime of the default and any sane user table,
under which the `+100`-per-level offset keeps levels separated. -/
inductive PriosInRange {T : Type} : DeepEx T → Prop where
  | mk : ∀ e : DeepEx T,
      (∀ o ∈ (DeepEx.bin_ops e).ops, 0 ≤ o.prio ∧ o.prio < 100) →
      (∀ n ∈ DeepEx.nodes e, ∀ e', n = DeepNode.Expr e' → PriosInRange e') →
      PriosInRange e

/-- A subtraction over `Int` with in-range priority `3`. -/
def subOp3 : BinOp Int := { apply := fun a b => a - b, prio := 3 }

/-- A subtraction over `Int` with in-range priority `5`. -/
def subOp5 : BinOp Int := { apply := fun a b => a - b, prio := 5 }

/-- The subexpression `(x - y)` with an in-range priority-`3`
operator. -/
def cexC6InSub : DeepEx Int :=
  DeepEx.mk [DeepNode.Var 0, DeepNode.Var 1]
    { reprs := ["-"], ops := [subOp3] } { reprs := [], op := [] }
    (prioritized_indices [subOp3] [DeepNode.Var 0, DeepNode.Var 1]) none

/-- The tree `1 - (x - y)` with in-range priorities (`5` outside, `3`
inside). -/
def cexC6In : DeepEx Int :=
  DeepEx.mk [DeepNode.Num 1, DeepNode.Expr cexC6InSub]
    { reprs := ["-"], ops := [subOp5] } { reprs := [], op := [] }
    (prioritized_indices [subOp5]
      [DeepNode.Num 1, DeepNode.Expr cexC6InSub]) none

/-! ### The default numeric-literal recognizer (`is_numeric_text`,
`src/parser.rs`) and the documented default pattern -/

/-- A character accepted inside a numeric run: a decimal digit or a
dot. -/
def isDigitOrDot (c : Char) : Bool := c.isDigit || c == '.'

/-- `is_numeric_text` (`src/parser.rs`) over the input's character list.
The source's `take_while` closure counts the dots among the characters it
accepts (the first rejected character is never a dot, since a dot is
always accepted), so `n_dots` is the number of dots in the accepted
run. -/
def is_numeric_text (text : List Char) : Option (List Char) :=
  let run := text.takeWhile isDigitOrDot
  let n_num_chars := run.length
  let n_dots := (run.filter (fun c => c == '.')).length
  if (1 < n_num_chars ∧ n_dots < 2) ∨ (n_num_chars = 1 ∧ n_dots = 0) then
    some run
  else none

/-- Greedy match of `[0-9]+(\.[0-9]+)?` at the start of the text (the
suffix of the documented default pattern after the optional leading
dot). -/
def matchDigitsThenFrac (t : List Char) : Option (List Char) :=
  let ds := t.takeWhile Char.isDigit
  if ds.isEmpty then none
  else
    match t.dropWhile Char.isDigit with
    | '.' :: r2 =>
      let ds2 := r2.takeWhile Char.isDigit
      if ds2.isEmpty then some ds else some (ds ++ '.' :: ds2)
    | _ => some ds

/-- Greedy leading match of the documented default number pattern
`\.?[0-9]+(\.[0-9]+)?` (`NUMBER_REGEX_PATTERN`, `src/parse.rs`),
following standard regex semantics: the optional leading dot is taken
when the remainder still matches (when it cannot, backtracking to the
empty alternative fails as well, since the leading dot is no digit), and
both digit runs are maximal (greedy `+`). -/
def regexLeadingMatch (t : List Char) : Option (List Char) :=
  match t with
  | [] => none
  | c :: r =>
    if c = '.' then (matchDigitsThenFrac r).map (fun m => '.' :: m)
    else matchDigitsThenFrac (c :: r)

/-! ### The differentiator's power rule (`pow_num`,
`src/expression/partial_derivatives.rs`)

`pow_num` manipulates the `DeepEx` of `expression/deep.rs`, which is not
among the given sources; the helpers it calls on that type are modelled
from the spec below and marked as such. -/

/-- Modelled from the spec: `deep.rs`'s `DeepEx::from_node` builds the
one-node expression carrying the overloaded operators. -/
def DeepEx.from_node {T : Type} (n : DeepNode T) (oo : OverloadedOps T) :
    DeepEx T :=
  DeepEx.mk [n] { reprs := [], ops := [] } { reprs := [], op := [] }
    (prioritized_indices ([] : List (BinOp T)) [n]) (some oo)

/-- Modelled from the spec: `deep.rs`'s `DeepEx::zero`, the literal-zero
expression. -/
def DeepEx.zero {T : Type} [Zero T] (oo : OverloadedOps T) : DeepEx T :=
  DeepEx.from_node (.Num 0) oo

/-- Modelled from the spec: `deep.rs`'s `DeepEx::one`, the literal-one
expression. -/
def DeepEx.one {T : Type} [One T] (oo : OverloadedOps T) : DeepEx T :=
  DeepEx.from_node (.Num 1) oo

/-- Modelled from the spec: `deep.rs`'s `DeepEx::is_zero` holds exactly
for the literal-zero expression (a single `Num 0` node). -/
def DeepEx.is_zero {T : Type} [DecidableEq T] [Zero T] (e : DeepEx T) :
    Bool :=
  match e.nodes with
  | [DeepNode.Num z] => decide (z = 0)
  | _ => false

/-- Modelled from the spec: `deep.rs`'s `DeepEx::is_one` holds exactly
for the literal-one expression. -/
def DeepEx.is_one {T : Type} [DecidableEq T] [One T] (e : DeepEx T) :
    Bool :=
  match e.nodes with
  | [DeepNode.Num z] => decide (z = 1)
  | _ => false

/-- Modelled from the spec: `deep.rs`'s `var_names_union` aligns the
variable-index spaces of the two operands; it does not change the
structure of either expression (in particular it preserves literal-zero
and literal-one expressions, which contain no variables). -/
def var_names_union {T : Type} (a b : DeepEx T) : DeepEx T × DeepEx T :=
  (a, b)

/-- Modelled from the spec: `deep.rs`'s `var_names_like_other` copies the
other's variable names onto a constant expression, leaving the structure
unchanged. -/
def var_names_like_other {T : Type} (e other : DeepEx T) : DeepEx T :=
  let _ := other
  e

/-- Modelled from the spec: `deep.rs`'s
`unpack_and_clone_overloaded_ops`, failing when the expression carries no
overloaded operators. -/
def unpack_and_clone_overloaded_ops {T : Type} (e : DeepEx T) :
    Except ExParseError (OverloadedOps T) :=
  match e.overloaded_ops with
  | some oo => .ok oo
  | none => .error ⟨"cannot unpack overloaded ops when there are none"⟩

/-- Modelled from the spec: `deep.rs`'s `DeepEx::operate_bin(other,
bin_op)` combines two expressions into the two-node tree joined by the
given binary operator. -/
def operateBinWith {T : Type} (a b : DeepEx T) (bop : BinOpsWithReprs T) :
    DeepEx T :=
  let nodes := [DeepNode.Expr a, DeepNode.Expr b]
  DeepEx.mk nodes bop { reprs := [], op := [] }
    (prioritized_indices bop.ops nodes) a.overloaded_ops

/-- Modelled from the spec: the arithmetic operator overloads (`+`, `-`,
`*`, `/`) on `deep.rs`'s `DeepEx` combine two expressions with the
corresponding overloaded operator.  The source panics when the
overloaded table or the binary form is absent; that case is totalised
(benignly returning the left operand) and is unreachable in the theorems
below. -/
def overloadBin {T : Type} (a b : DeepEx T)
    (pick : OverloadedOps T → Operator T) (r : String) : DeepEx T :=
  match a.overloaded_ops with
  | some oo =>
    match (pick oo).bin_op with
    | some bo => operateBinWith a b { reprs := [r], ops := [bo] }
    | none => a
  | none => a

/-- Modelled from the spec: `deep.rs`'s `operate_unary` wraps an
expression with a new composed unary operator. -/
def operate_unary {T : Type} (e : DeepEx T) (u : UnaryOpWithReprs T) :
    DeepEx T :=
  DeepEx.mk [DeepNode.Expr e] { reprs := [], ops := [] } u
    (prioritized_indices ([] : List (BinOp T)) [DeepNode.Expr e])
    e.overloaded_ops

/-- `find_op` (`src/expression/partial_derivatives.rs`). -/
def find_op {T : Type} (r : String) (ops : List (Operator T)) :
    Option (Operator T) :=
  (ops.find? (fun op => op.repr == r)).map
    (fun op => { repr := r, bin_op := op.bin_op, unary_op := op.unary_op })

/-- `find_as_bin_op_with_reprs` (`src/expression/partial_derivatives.rs`). -/
def find_as_bin_op_with_reprs {T : Type} (r : String)
    (ops : List (Operator T)) : Except ExParseError (BinOpsWithReprs T) :=
  match find_op r ops with
  | none => .error ⟨"did not find operator " ++ r⟩
  | some op =>
    match op.bin_op with
    | none => .error ⟨"operater " ++ r ++ " is not binary"⟩
    | some b => .ok { reprs := [r], ops := [b] }

/-- `find_as_unary_op_with_reprs` (`src/expression/partial_derivatives.rs`). -/
def find_as_unary_op_with_reprs {T : Type} (r : String)
    (ops : List (Operator T)) : Except ExParseError (UnaryOpWithReprs T) :=
  match find_op r ops with
  | none => .error ⟨"did not find operator " ++ r⟩
  | some op =>
    match op.unary_op with
    | none => .error ⟨"operater " ++ r ++ " is not unary"⟩
    | some u => .ok { reprs := [r], op := [u] }

/-- `add_num` (`src/expression/partial_derivatives.rs`). -/
def add_num {T : Type} [DecidableEq T] [Zero T] (s1 s2 : DeepEx T) :
    Except ExParseError (DeepEx T) :=
  let p := var_names_union s1 s2
  .ok (if p.1.is_zero then p.2
    else if p.2.is_zero then p.1
    else overloadBin p.1 p.2 OverloadedOps.add "+")

/-- `mul_num` (`src/expression/partial_derivatives.rs`). -/
def mul_num {T : Type} [DecidableEq T] [Zero T] [One T] (f1 f2 : DeepEx T) :
    Except ExParseError (DeepEx T) :=
  match unpack_and_clone_overloaded_ops f1 with
  | .error e => .error e
  | .ok oo =>
    let zero := DeepEx.zero oo
    let p := var_names_union f1 f2
    let zero := var_names_like_other zero p.1
    .ok (if p.1.is_zero || p.2.is_zero then zero
      else if p.1.is_one then p.2
      else if p.2.is_one then p.1
      else overloadBin p.1 p.2 OverloadedOps.mul "*")

/-- `pow_num` (`src/expression/partial_derivatives.rs`): the generalized
power rule's value computation, failing fatally when base and exponent
are both the literal zero. -/
def pow_num {T : Type} [DecidableEq T] [Zero T] [One T]
    (base exponent : DeepEx T) (power_op : BinOpsWithReprs T) :
    Except ExParseError (DeepEx T) :=
  match unpack_and_clone_overloaded_ops base with
  | .error e => .error e
  | .ok ooz =>
  match unpack_and_clone_overloaded_ops base with
  | .error e => .error e
  | .ok ooo =>
    let zero := DeepEx.zero ooz
    let one := DeepEx.one ooo
    let p := var_names_union base exponent
    let zero := var_names_like_other zero p.1
    let one := var_names_like_other one p.1
    if p.1.is_zero && p.2.is_zero then
      .error ⟨"base and exponent both zero. help. fatal. ah. help."⟩
    else if p.1.is_zero then .ok zero
    else if p.2.is_zero then .ok one
    else .ok (operateBinWith p.1 p.2 power_op)

/-- `ValueDerivative` (`src/expression/partial_derivatives.rs`). -/
structure ValueDerivative (T : Type) where
  val : DeepEx T
  der : DeepEx T

/-- The `"^"` entry of `make_partial_derivative_ops`
(`src/expression/partial_derivatives.rs`): the generalized power rule
`d(f^g) = f^(g-1)·g·f' + f^g·ln(f)·g'`, computed via `pow_num`,
`mul_num` and `add_num`. -/
def powRuleBinOp {T : Type} [DecidableEq T] [Zero T] [One T]
    (f g : ValueDerivative T) (ops : List (Operator T)) :
    Except ExParseError (ValueDerivative T) :=
  match find_as_bin_op_with_reprs "^" ops with
  | .error e => .error e
  | .ok power_op =>
  match find_as_unary_op_with_reprs "log" ops with
  | .error e => .error e
  | .ok log_op =>
  match unpack_and_clone_overloaded_ops f.val with
  | .error e => .error e
  | .ok oo =>
    let one := DeepEx.one oo
    match pow_num f.val g.val power_op with
    | .error e => .error e
    | .ok val =>
    match pow_num f.val (overloadBin g.val one OverloadedOps.sub "-")
        power_op with
    | .error e => .error e
    | .ok pm1 =>
    match mul_num pm1 g.val with
    | .error e => .error e
    | .ok m1 =>
    match mul_num m1 f.der with
    | .error e => .error e
    | .ok der_1 =>
    match mul_num val (operate_unary f.val log_op) with
    | .error e => .error e
    | .ok m2 =>
    match mul_num m2 g.der with
    | .error e => .error e
    | .ok der_2 =>
    match add_num der_1 der_2 with
    | .error e => .error e
    | .ok der => .ok { val := val, der := der }

/-! ### Concrete expressions used as test vehicles -/

/-- The default subtraction operator over `Int` (binary priority `1`, as
in the default operator table where `-` outranks nothing but `+`). -/
def subOp : BinOp Int := { apply := fun a b => a - b, prio := 1 }

/-- The default addition operator over `Int`. -/
def addOp : BinOp Int := { apply := fun a b => a + b, prio := 0 }

/-- The subexpression `(2 - y)` (with `y` the second distinct variable). -/
def cexDeepSub : DeepEx Int :=
  DeepEx.mk [DeepNode.Num 2, DeepNode.Var 1]
    { reprs := ["-"], ops := [subOp] } { reprs := [], op := [] }
    (prioritized_indices [subOp] [DeepNode.Num 2, DeepNode.Var 1]) none

/-- The nested tree of `x - 1 - (2 - y)`: top level `[x, 1, (2 - y)]`
with two equal-priority subtractions (spec §4.4: nesting reflects
parenthesization only).  `compile` leaves it unchanged (see the
divergence theorem), so it is exactly the compiled tree the parse
pipeline hands to `flatten`. -/
def cexDeep : DeepEx Int :=
  DeepEx.mk [DeepNode.Var 0, DeepNode.Num 1, DeepNode.Expr cexDeepSub]
    { reprs := ["-", "-"], ops := [subOp, subOp] } { reprs := [], op := [] }
    (prioritized_indices [subOp, subOp]
      [DeepNode.Var 0, DeepNode.Num 1, DeepNode.Expr cexDeepSub]) none

/-- The nested tree of `x0 + x1 + … + x32`: 33 distinct variables joined
by 32 additions — a perfectly ordinary input that needs 33 flat nodes. -/
def deep33 : DeepEx Int :=
  DeepEx.mk ((List.range 33).map DeepNode.Var)
    { reprs := List.replicate 32 "+", ops := List.replicate 32 addOp }
    { reprs := [], op := [] }
    (prioritized_indices (List.replicate 32 addOp)
      ((List.range 33).map DeepNode.Var)) none

/-- A variable-free flat expression with 33 literal nodes and 32
additions (structurally well formed: 33 nodes, 32 operators, the
priority order is the identity permutation). -/
def cexFlat0Var : FlatEx Int :=
  { nodes := (List.range 33).map (fun _ => FlatNode.from_kind (.Num 1))
    ops := List.replicate 32 { unary_op := [], bin_op := addOp }
    prio_indices := List.range 32
    n_unique_vars := 0
    deepex := none }

/-- A one-node variable-free flat expression (`5`). -/
def cexSingleNum : FlatEx Int :=
  { nodes := [FlatNode.from_kind (.Num 5)]
    ops := []
    prio_indices := []
    n_unique_vars := 0
    deepex := none }

/-- A subtraction with user priority `200`. -/
def bigPrioOp : BinOp Int := { apply := fun a b => a - b, prio := 200 }

/-- A subtraction with user priority `50`. -/
def smallPrioOp : BinOp Int := { apply := fun a b => a - b, prio := 50 }

/-- The subexpression `(x - y)` with a priority-`50` operator. -/
def cexC6Sub : DeepEx Int :=
  DeepEx.mk [DeepNode.Var 0, DeepNode.Var 1]
    { reprs := ["-"], ops := [smallPrioOp] } { reprs := [], op := [] }
    (prioritized_indices [smallPrioOp] [DeepNode.Var 0, DeepNode.Var 1]) none

/-- The tree `1 - (x - y)` whose top-level operator has user priority
`200` while the parenthesized operator has priority `50`. -/
def cexC6 : DeepEx Int :=
  DeepEx.mk [DeepNode.Num 1, DeepNode.Expr cexC6Sub]
    { reprs := ["-"], ops := [bigPrioOp] } { reprs := [], op := [] }
    (prioritized_indices [bigPrioOp]
      [DeepNode.Num 1, DeepNode.Expr cexC6Sub]) none

/-- A concrete overloaded-arithmetic table over `Int`. -/
def ooInt : OverloadedOps Int :=
  { add := { repr := "+", bin_op := some addOp, unary_op := none }
    sub := { repr := "-", bin_op := some subOp, unary_op := none }
    mul := { repr := "*",
             bin_op := some { apply := fun a b => a * b, prio := 1 },
             unary_op := none }
    div := { repr := "/",
             bin_op := some { apply := fun a b => a / b, prio := 1 },
             unary_op := none }
    pow := { repr := "^",
             bin_op := some { apply := fun a b => a * b, prio := 2 },
             unary_op := none } }

/-- A concrete operator list over `Int` containing a binary `^` and a
unary `log`. -/
def opsInt : List (Operator Int) :=
  [{ repr := "^", bin_op := some { apply := fun a b => a * b, prio := 2 },
     unary_op := none },
   { repr := "log", bin_op := none, unary_op := some (fun a => a) }]

/-- The literal-zero expression over `Int` carrying `ooInt`. -/
def zeroExInt : DeepEx Int := DeepEx.zero ooInt

/-! ### Counting and folding helpers (for the invariant and idempotence
results about `DeepEx::compile`) -/

/-- Number of elements of `used` that are strictly below `b`:
how far an operator index shifts left after the used operators are
dropped. -/
def countBelow (used : List Nat) (b : Nat) : Nat :=
  (used.filter (fun u => decide (u < b))).length

/-- Holds when an optional node is a literal `Num`. -/
def isNumNode {T : Type} : Option (DeepNode T) → Prop
  | some (DeepNode.Num _) => True
  | _ => False

/-- Holds when the nodes at positions `k` and `k + 1` are both literal
numbers (the condition of `compile`'s folding step). -/
def bothNumAt {T : Type} (nodes : List (DeepNode T)) (k : Nat) : Prop :=
  isNumNode (nodes.get? k) ∧ isNumNode (nodes.get? (k + 1))

/-- Number of indices below `b` accepted by the predicate `p` (the
position of index `b` inside `filterByIdx _ p`). -/
def countTrueBelow (p : Nat → Bool) (b : Nat) : Nat :=
  ((List.range b).filter p).length

/-- The priority that `deepKey` reads at index `i` (`0` when out of
range, unreachable under the length invariant). -/
def opPrioAt {T : Type} (ops : List (BinOp T)) (i : Nat) : Int :=
  match ops.get? i with
  | some o => o.prio
  | none => 0

/-- The per-node map of `phaseA` (`compile`'s first pass) as a named
function. -/
def phaseANode {T : Type} (n : DeepNode T) : DeepNode T :=
  match n with
  | .Expr e =>
    match e.nodes with
    | [DeepNode.Num m] => .Num m
    | _ => n
  | _ => n

mutual

/-- The structural invariant of the nested expression type (spec:
`nodes.len() == operators.len() + 1`, always, at every nesting level),
stated recursively through all subexpressions. -/
def DeepInv {T : Type} : DeepEx T → Prop
  | .mk nodes bops _ _ _ => nodes.length = bops.ops.length + 1 ∧
      DeepNodesInv nodes

def DeepNodesInv {T : Type} : List (DeepNode T) → Prop
  | [] => True
  | n :: rest => DeepNodeInv n ∧ DeepNodesInv rest

def DeepNodeInv {T : Type} : DeepNode T → Prop
  | .Num _ => True
  | .Var _ => True
  | .Expr e => DeepInv e

end

/-- The nested expressions reachable through the public operations of the
library: construction via `DeepEx::new` (with already-reachable
subexpressions), the `compile` pass, the overloaded arithmetic
(`operate_bin`, `overloadBin`, `operate_bin` with an explicit
single-operator table), the single-node constructors used by the
differentiation code (`from_node` on numbers and variables, hence
`zero`/`one`), `operate_unary` and `set_overloaded_ops`. -/
inductive ReachableDeep {T : Type} : DeepEx T → Prop where
  | new : ∀ (nodes : List (DeepNode T)) (bops : BinOpsWithReprs T)
      (uop : UnaryOpWithReprs T) (res : DeepEx T),
      (∀ e, DeepNode.Expr e ∈ nodes → ReachableDeep e) →
      DeepEx.new nodes bops uop = .ok res → ReachableDeep res
  | compiled : ∀ e, ReachableDeep e → ReachableDeep (compile e)
  | op_bin : ∀ a b r res, ReachableDeep a → ReachableDeep b →
      operate_bin a b r = some res → ReachableDeep res
  | set_ovl : ∀ e oo, ReachableDeep e →
      ReachableDeep (e.set_overloaded_ops oo)
  | from_node_num : ∀ (v : T) oo, ReachableDeep (DeepEx.from_node (.Num v) oo)
  | from_node_var : ∀ i oo, ReachableDeep (DeepEx.from_node (.Var i) oo)
  | unary : ∀ e u, ReachableDeep e → ReachableDeep (operate_unary e u)
  | overload : ∀ a b pick r, ReachableDeep a → ReachableDeep b →
      ReachableDeep (overloadBin a b pick r)
  | op_with : ∀ a b (bop : BinOpsWithReprs T), bop.ops.length = 1 →
      ReachableDeep a → ReachableDeep b →
      ReachableDeep (operateBinWith a b bop)

/-- A small concrete expression (one variable, two literals) used to
exercise `compile`'s idempotence. -/
def idemEx : DeepEx Int :=
  DeepEx.mk [DeepNode.Var 0, DeepNode.Num 2, DeepNode.Num 3]
    { reprs := ["+", "-"], ops := [addOp, subOp] } { reprs := [], op := [] }
    (prioritized_indices [addOp, subOp]
      [DeepNode.Var 0, DeepNode.Num 2, DeepNode.Num 3]) none

end Exmex

namespace Exmex

/-! ## Theorems -/

/-- C10: `clear_deepex` only clears the retained deep expression; the
flat nodes, operators, priority order and variable count are untouched,
and evaluation is unchanged for every value slice. -/
theorem clear_deepex_frame {T : Type} (e : FlatEx T) (vars : List T) :
    (e.clear_deepex).nodes = e.nodes ∧
    (e.clear_deepex).ops = e.ops ∧
    (e.clear_deepex).prio_indices = e.prio_indices ∧
    (e.clear_deepex).n_unique_vars = e.n_unique_vars ∧
    (e.clear_deepex).deepex = none ∧
    (e.clear_deepex).eval vars = e.eval vars :=
  ⟨rfl, rfl, rfl, rfl, rfl, rfl⟩

/-- C1 (failing input): on the compiled tree of `x - 1 - (2 - y)` with
`x = 0, y = 0`, the flattened priority-ordered evaluation returns `1`
while the direct recursive tree-walk returns `-3` — the adjacent-literal
`+5` priority bonus sees the literal `2` inside the parentheses as the
flat right neighbour of the middle `-` and fires it before the left `-`.
The tree is a fixed point of `compile`, i.e. exactly what the pipeline
flattens. -/
theorem flatten_eval_ne_tree_walk :
    (flatten cexDeep).eval [0, 0] = EvalResult.ok 1 ∧
    evalDeepSpec cexDeep [0, 0] = -3 ∧
    compile cexDeep = cexDeep ∧
    (flatten cexDeep).n_unique_vars = 2 :=
  ⟨rfl, rfl, rfl, rfl⟩

/-- C2 (failing input): evaluating the flattened form of
`x0 + x1 + … + x32` (33 distinct variables) with a correctly sized value
slice panics — `eval`'s `ignore` buffer has only `N_NODES_ON_STACK = 32`
entries and the read `ignore[32]` is out of bounds — instead of
returning a typed error.  The tree is a fixed point of `compile`. -/
theorem eval_panics_on_33_nodes :
    (flatten deep33).eval (List.replicate 33 (0 : Int)) = EvalResult.panic ∧
    (flatten deep33).n_unique_vars = 33 ∧
    compile deep33 = deep33 :=
  ⟨rfl, rfl, rfl⟩

/-- C3 (counterexample): a structurally well-formed flat expression with
0 variables and 33 literal nodes; `eval` on the empty slice does not
succeed — it panics (the 32-entry `ignore` buffer again), so "succeeds
on the empty slice" fails as stated. -/
theorem zero_var_eval_not_ok :
    cexFlat0Var.n_unique_vars = 0 ∧
    cexFlat0Var.eval [] = EvalResult.panic ∧
    ∀ v : Int, cexFlat0Var.eval [] ≠ EvalResult.ok v :=
  ⟨rfl, rfl, fun _ h => EvalResult.noConfusion (rfl.symm.trans h)⟩

/-- C6 (counterexample): flattening `1 - (x - y)` where the outer `-`
has user priority `200` and the inner one `50`: the adapted priorities
are `[200, 150]` with origin depths `[0, 1]`, so the operator from the
deeper level does *not* outrank the shallower one. -/
theorem deeper_prio_not_greater :
    (flattenVecs cexC6 0).2.map (fun o => o.bin_op.prio) = [200, 150] ∧
    opDepthPrios cexC6 0 0 = [(200, 0), (150, 1)] ∧
    ¬(∀ p₁ p₂, p₁ ∈ opDepthPrios cexC6 0 0 → p₂ ∈ opDepthPrios cexC6 0 0 →
      p₂.2 < p₁.2 → p₂.1 < p₁.1) := by
  refine ⟨rfl, rfl, fun h => ?_⟩
  have := h (150, 1) (200, 0) (by decide) (by decide) (by decide)
  omega

/-- C3 (amended): `eval` returns a typed error exactly when the value
slice's length differs from the expression's distinct-variable count (no
other code path returns an error — every other failure is a panic).
Consequently a 0-variable expression errors on every nonempty slice and
never errors on the empty slice. -/
theorem eval_err_iff_len_mismatch {T : Type} (e : FlatEx T) (vars : List T) :
    ((∃ m, e.eval vars = EvalResult.err m) ↔ vars.length ≠ e.n_unique_vars) ∧
    (e.n_unique_vars = 0 →
      (∀ (v : T) (vs : List T), ∃ m, e.eval (v :: vs) = EvalResult.err m) ∧
      (∀ m, e.eval [] ≠ EvalResult.err m)) := by
  have key : ∀ vs : List T,
      (∃ m, e.eval vs = EvalResult.err m) ↔ vs.length ≠ e.n_unique_vars := by
    intro vs
    unfold FlatEx.eval
    by_cases h : e.n_unique_vars ≠ vs.length
    · simp only [if_pos h]
      exact ⟨fun _ => fun hh => h hh.symm, fun _ => ⟨_, rfl⟩⟩
    · push_neg at h
      simp only [if_neg (show ¬e.n_unique_vars ≠ vs.length by omega)]
      constructor
      · rintro ⟨m, hm⟩
        exfalso
        split at hm
        · exact EvalResult.noConfusion hm
        · split at hm
          · exact EvalResult.noConfusion hm
          · split at hm
            · exact EvalResult.noConfusion hm
            · exact EvalResult.noConfusion hm
      · intro hh
        exact absurd h.symm hh
  refine ⟨key vars, fun h0 => ⟨fun v vs => (key (v :: vs)).2 ?_, fun m hm =>
    (key []).1 ⟨m, hm⟩ ?_⟩⟩
  · simp [h0]
  · simp [h0]

/-- Closed instantiation of `eval_err_iff_len_mismatch` at the one-node
variable-free expression `5`: an oversized slice yields an error, the
empty slice never does. -/
theorem eval_err_iff_len_mismatch_witness :
    (∃ m, cexSingleNum.eval [0] = EvalResult.err m) ∧
    (∀ m, cexSingleNum.eval [] ≠ EvalResult.err m) :=
  ⟨(eval_err_iff_len_mismatch cexSingleNum [0]).1.2 (by decide),
   ((eval_err_iff_len_mismatch cexSingleNum []).2 rfl).2⟩

/-- The stable descending sort is a permutation of `range n` that is
pairwise strictly ordered by "greater key, or equal key and earlier
original position" — the characterization used for the priority
order. -/
theorem stableDescSort_spec (key : Nat → Int) (n : Nat) :
    (stableDescSort key n).Perm (List.range n) ∧
    (stableDescSort key n).Pairwise
      (fun i j => key j < key i ∨ (key i = key j ∧ i < j)) := by
  have hperm : (stableDescSort key n).Perm (List.range n) :=
    List.perm_insertionSort _ _
  refine ⟨hperm, ?_⟩
  have hs : (stableDescSort key n).Pairwise (keyOrder key) :=
    List.sorted_insertionSort (keyOrder key) (List.range n)
  have hnd : (stableDescSort key n).Nodup :=
    hperm.nodup_iff.mpr (List.nodup_range n)
  exact (hs.and hnd).imp (fun hij => by unfold keyOrder at hij; omega)

/-- C4: both `prioritized_indices` (deep nodes) and
`prioritized_indices_flat` (flat nodes) compute the permutation of
operator indices sorted descending by the key
`priority(i) * 10 + (5 if node[i] and node[i+1] are both literal
numbers else 0)`, with ties broken by original left-to-right position. -/
theorem prioritized_indices_are_stable_desc_sort {T : Type}
    (bin_ops : List (BinOp T)) (dnodes : List (DeepNode T))
    (fops : List (FlatOp T)) (fnodes : List (FlatNode T))
    (hd : dnodes.length = bin_ops.length + 1)
    (hf : fnodes.length = fops.length + 1) :
    ((prioritized_indices bin_ops dnodes).Perm
        (List.range bin_ops.length) ∧
      (prioritized_indices bin_ops dnodes).Pairwise (fun i j =>
        deepKey bin_ops dnodes j < deepKey bin_ops dnodes i ∨
        (deepKey bin_ops dnodes i = deepKey bin_ops dnodes j ∧ i < j))) ∧
    ((prioritized_indices_flat fops fnodes).Perm
        (List.range fops.length) ∧
      (prioritized_indices_flat fops fnodes).Pairwise (fun i j =>
        flatKey fops fnodes j < flatKey fops fnodes i ∨
        (flatKey fops fnodes i = flatKey fops fnodes j ∧ i < j))) := by
  have _ := hd
  have _ := hf
  exact ⟨stableDescSort_spec _ _, stableDescSort_spec _ _⟩

/-- Closed instantiation of the priority-order characterization at
`[1, 2, x]` with operators `-` (priority 1) and `+` (priority 0). -/
theorem prioritized_indices_sort_witness :
    ([DeepNode.Num (1 : Int), DeepNode.Num 2, DeepNode.Var 0].length =
      [subOp, addOp].length + 1) ∧
    (prioritized_indices [subOp, addOp]
      [DeepNode.Num (1 : Int), DeepNode.Num 2, DeepNode.Var 0]).Perm
      (List.range 2) :=
  ⟨by decide,
    (prioritized_indices_are_stable_desc_sort [subOp, addOp]
      [DeepNode.Num (1 : Int), DeepNode.Num 2, DeepNode.Var 0]
      ([] : List (FlatOp Int)) [FlatNode.from_kind (.Num (0 : Int))]
      (by decide) (by decide)).1.1⟩

/-- C8: when base and exponent are both the literal zero expression,
`pow_num` fails with the 0^0 error, and through the `^` entry of the
partial-derivative operator table the same error is returned instead of
a derivative expression. -/
theorem pow_rule_zero_zero_error {T : Type} [DecidableEq T] [Zero T] [One T]
    (f g : ValueDerivative T) (ops : List (Operator T))
    (oo : OverloadedOps T) (pop : BinOpsWithReprs T)
    (hov : f.val.overloaded_ops = some oo)
    (hf : f.val.is_zero = true) (hg : g.val.is_zero = true)
    (hpow : ∃ bp, find_as_bin_op_with_reprs "^" ops = Except.ok bp)
    (hlog : ∃ lp, find_as_unary_op_with_reprs "log" ops = Except.ok lp) :
    pow_num f.val g.val pop =
      Except.error ⟨"base and exponent both zero. help. fatal. ah. help."⟩ ∧
    powRuleBinOp f g ops =
      Except.error ⟨"base and exponent both zero. help. fatal. ah. help."⟩ := by
  have hunp : unpack_and_clone_overloaded_ops f.val = Except.ok oo := by
    unfold unpack_and_clone_overloaded_ops
    rw [hov]
  have hpn : ∀ pop' : BinOpsWithReprs T, pow_num f.val g.val pop' =
      Except.error ⟨"base and exponent both zero. help. fatal. ah. help."⟩ := by
    intro pop'
    unfold pow_num
    rw [hunp]
    simp [var_names_union, var_names_like_other, hf, hg]
  refine ⟨hpn pop, ?_⟩
  obtain ⟨bp, hbp⟩ := hpow
  obtain ⟨lp, hlp⟩ := hlog
  unfold powRuleBinOp
  rw [hbp, hlp, hunp]
  simp only []
  rw [hpn bp]

/-- Closed instantiation of the 0^0 failure at the literal-zero `Int`
expression and a concrete operator table containing `^` and `log`. -/
theorem pow_rule_zero_zero_witness :
    zeroExInt.overloaded_ops = some ooInt ∧
    zeroExInt.is_zero = true ∧
    powRuleBinOp { val := zeroExInt, der := zeroExInt }
        { val := zeroExInt, der := zeroExInt } opsInt =
      Except.error ⟨"base and exponent both zero. help. fatal. ah. help."⟩ :=
  ⟨rfl, rfl,
    (pow_rule_zero_zero_error { val := zeroExInt, der := zeroExInt }
      { val := zeroExInt, der := zeroExInt } opsInt ooInt
      { reprs := [], ops := [] } rfl (by rfl) (by rfl) ⟨_, rfl⟩ ⟨_, rfl⟩).2⟩

theorem modifyIdx_nil {α : Type} (k : Nat) (g : α → α) :
    modifyIdx ([] : List α) k g = [] := rfl

theorem modifyIdx_cons_zero {α : Type} (a : α) (l : List α) (g : α → α) :
    modifyIdx (a :: l) 0 g = g a :: l := rfl

theorem modifyIdx_cons_succ {α : Type} (a : α) (l : List α) (k : Nat)
    (g : α → α) : modifyIdx (a :: l) (k + 1) g = a :: modifyIdx l k g := by
  unfold modifyIdx
  rw [List.get?_cons_succ]
  cases h : l.get? k with
  | none => simp [h]
  | some b => simp [h, List.set_cons_succ]

/-- Mapping a function that is blind to the modification commutes with
`modifyIdx`. -/
theorem map_modifyIdx_eq {α β : Type} (f : α → β) (g : α → α)
    (hfg : ∀ a, f (g a) = f a) :
    ∀ (l : List α) (k : Nat), (modifyIdx l k g).map f = l.map f := by
  intro l
  induction l with
  | nil => intro k; rfl
  | cons a l ih =>
    intro k
    cases k with
    | zero => simp [modifyIdx_cons_zero, hfg]
    | succ k => simp [modifyIdx_cons_succ, ih]

/-- The unary-relocation step of `flatten_vecs` does not change the
binary-operator priorities. -/
theorem relocateUnary_prios {T : Type} (uop : List (T → T))
    (nodes : List (FlatNode T)) (ops : List (FlatOp T)) :
    ((relocateUnary uop nodes ops).2).map (fun o => o.bin_op.prio) =
      ops.map (fun o => o.bin_op.prio) := by
  unfold relocateUnary
  split
  · split
    · dsimp only
      exact map_modifyIdx_eq (fun o => o.bin_op.prio)
        (fun o => { o with unary_op := appendFront o.unary_op uop })
        (fun _ => rfl) ops (lastMinPrioIdx ops)
    · split <;> rfl
  · rfl

theorem flattenNodes_cons {T : Type} (n : DeepNode T)
    (rest : List (DeepNode T)) (ops : List (BinOp T)) (off : Int) :
    flattenNodes (n :: rest) ops off =
      ((flattenNode n off).1 ++ (flattenNodes rest ops.tail off).1,
       (flattenNode n off).2 ++ adaptHeadOp ops off ++
         (flattenNodes rest ops.tail off).2) := rfl

theorem opDepthPriosNodes_cons {T : Type} (n : DeepNode T)
    (rest : List (DeepNode T)) (ops : List (BinOp T)) (off : Int) (d : Nat) :
    opDepthPriosNodes (n :: rest) ops off d =
      opDepthPriosNode n off d ++ headOpDepth ops off d ++
        opDepthPriosNodes rest ops.tail off d := rfl

theorem adaptHeadOp_prios {T : Type} (ops : List (BinOp T)) (off : Int)
    (d : Nat) :
    (adaptHeadOp ops off).map (fun o => o.bin_op.prio) =
      (headOpDepth ops off d).map Prod.fst := by
  cases ops <;> rfl

mutual
/-- The priorities emitted by `flatten_vecs` coincide with the first
components of the depth-annotated operator list. -/
theorem flattenVecs_prios {T : Type} (e : DeepEx T) (off : Int) (d : Nat) :
    ((flattenVecs e off).2).map (fun o => o.bin_op.prio) =
      (opDepthPrios e off d).map Prod.fst := by
  match e with
  | .mk nodes bin_ops uop pr ovl =>
    show ((relocateUnary uop.op (flattenNodes nodes bin_ops.ops off).1
        (flattenNodes nodes bin_ops.ops off).2).2).map
        (fun o => o.bin_op.prio) =
      (opDepthPriosNodes nodes bin_ops.ops off d).map Prod.fst
    rw [relocateUnary_prios]
    exact flattenNodes_prios nodes bin_ops.ops off d
  termination_by sizeOf e
  decreasing_by all_goals (simp_wf <;> omega)

/-- Single-node version of `flattenVecs_prios`. -/
theorem flattenNode_prios {T : Type} (n : DeepNode T) (off : Int) (d : Nat) :
    ((flattenNode n off).2).map (fun o => o.bin_op.prio) =
      (opDepthPriosNode n off d).map Prod.fst := by
  match n with
  | DeepNode.Num num => rfl
  | DeepNode.Var idx => rfl
  | DeepNode.Expr e => exact flattenVecs_prios e (off + 100) (d + 1)
  termination_by sizeOf n
  decreasing_by all_goals (simp_wf <;> omega)

/-- Node-list version of `flattenVecs_prios`. -/
theorem flattenNodes_prios {T : Type} (nodes : List (DeepNode T))
    (ops : List (BinOp T)) (off : Int) (d : Nat) :
    ((flattenNodes nodes ops off).2).map (fun o => o.bin_op.prio) =
      (opDepthPriosNodes nodes ops off d).map Prod.fst := by
  match nodes with
  | [] => rfl
  | n :: rest =>
    rw [flattenNodes_cons, opDepthPriosNodes_cons]
    simp only [List.map_append]
    rw [flattenNode_prios n off d, adaptHeadOp_prios ops off d,
      flattenNodes_prios rest ops.tail off d]
  termination_by sizeOf nodes
  decreasing_by all_goals (simp_wf <;> omega)
end

mutual
/-- Bounds on the depth-annotated priorities: an operator originating at
depth `dep ≥ d` (relative start depth `d`, offset `off`) has adapted
priority in `[off + 100*(dep-d), off + 100*(dep-d) + 100)`, provided all
raw priorities are in `[0, 100)`. -/
theorem opDepthPrios_bounds {T : Type} (e : DeepEx T) (off : Int) (d : Nat)
    (h : PriosInRange e) :
    ∀ p ∈ opDepthPrios e off d, d ≤ p.2 ∧
      off + 100 * ((p.2 - d : Nat) : Int) ≤ p.1 ∧
      p.1 < off + 100 * ((p.2 - d : Nat) : Int) + 100 := by
  match e, h with
  | .mk nodes bin_ops uop pr ovl, .mk _ ho hn =>
    exact opDepthPriosNodes_bounds nodes bin_ops.ops off d
      (fun n hmem e' he => hn n hmem e' he) (fun o hmem => ho o hmem)
  termination_by sizeOf e
  decreasing_by all_goals (simp_wf <;> omega)

/-- Single-node version of `opDepthPrios_bounds`. -/
theorem opDepthPriosNode_bounds {T : Type} (n : DeepNode T) (off : Int)
    (d : Nat) (hn : ∀ e', n = DeepNode.Expr e' → PriosInRange e') :
    ∀ p ∈ opDepthPriosNode n off d, d ≤ p.2 ∧
      off + 100 * ((p.2 - d : Nat) : Int) ≤ p.1 ∧
      p.1 < off + 100 * ((p.2 - d : Nat) : Int) + 100 := by
  match n with
  | DeepNode.Num num => intro p hp; exact absurd hp (by simp [opDepthPriosNode])
  | DeepNode.Var idx => intro p hp; exact absurd hp (by simp [opDepthPriosNode])
  | DeepNode.Expr e =>
    intro p hp
    have hin : p ∈ opDepthPrios e (off + 100) (d + 1) := hp
    obtain ⟨h1, h2, h3⟩ :=
      opDepthPrios_bounds e (off + 100) (d + 1) (hn e rfl) p hin
    have hsub : ((p.2 - d : Nat) : Int) =
        ((p.2 - (d + 1) : Nat) : Int) + 1 := by omega
    refine ⟨by omega, ?_, ?_⟩ <;> · rw [hsub]; omega
  termination_by sizeOf n
  decreasing_by all_goals (simp_wf <;> omega)

/-- Node-list version of `opDepthPrios_bounds`. -/
theorem opDepthPriosNodes_bounds {T : Type} (nodes : List (DeepNode T))
    (ops : List (BinOp T)) (off : Int) (d : Nat)
    (hn : ∀ n ∈ nodes, ∀ e', n = DeepNode.Expr e' → PriosInRange e')
    (ho : ∀ o ∈ ops, 0 ≤ o.prio ∧ o.prio < 100) :
    ∀ p ∈ opDepthPriosNodes nodes ops off d, d ≤ p.2 ∧
      off + 100 * ((p.2 - d : Nat) : Int) ≤ p.1 ∧
      p.1 < off + 100 * ((p.2 - d : Nat) : Int) + 100 := by
  match nodes with
  | [] => intro p hp; exact absurd hp (by simp [opDepthPriosNodes])
  | n :: rest =>
    intro p hp
    rw [opDepthPriosNodes_cons] at hp
    rcases List.mem_append.mp hp with hleft | htail
    · rcases List.mem_append.mp hleft with hin | hop
      · exact opDepthPriosNode_bounds n off d (fun e' he => hn n (by simp) e' he)
          p hin
      · cases ops with
        | nil => exact absurd hop (by simp [headOpDepth])
        | cons o tailops =>
          have hpeq : p = (o.prio + off, d) := by
            simpa [headOpDepth] using hop
          have hb := ho o (by simp)
          rw [hpeq]
          refine ⟨le_refl _, ?_, ?_⟩ <;> · simp; omega
    · exact opDepthPriosNodes_bounds rest ops.tail off d
        (fun n' hmem e' he => hn n' (by simp [hmem]) e' he)
        (fun o hmem => ho o (List.mem_of_mem_tail hmem)) p htail
  termination_by sizeOf nodes
  decreasing_by all_goals (simp_wf <;> omega)
end

/-- C6 (amended): provided every binary-operator priority at every level
lies in `[0, 100)` (as for the default operators), after flattening every
binary operator that originated from a deeper nesting level has a
strictly greater adapted priority than every operator from a shallower
level; `flatten_vecs` emits exactly the priorities recorded by the
depth-annotated list. -/
theorem deeper_ops_outrank_shallower {T : Type} (e : DeepEx T) (off : Int)
    (h : PriosInRange e) :
    (((flattenVecs e off).2).map (fun o => o.bin_op.prio) =
      (opDepthPrios e off 0).map Prod.fst) ∧
    ∀ p₁ p₂, p₁ ∈ opDepthPrios e off 0 → p₂ ∈ opDepthPrios e off 0 →
      p₂.2 < p₁.2 → p₂.1 < p₁.1 := by
  refine ⟨flattenVecs_prios e off 0, fun p₁ p₂ h1 h2 hd => ?_⟩
  obtain ⟨_, b12, _⟩ := opDepthPrios_bounds e off 0 h p₁ h1
  obtain ⟨_, _, b23⟩ := opDepthPrios_bounds e off 0 h p₂ h2
  omega

/-- Closed instantiation of the amended deeper-outranks-shallower
property at the in-range tree `1 - (x - y)` (priorities `5` and `3`). -/
theorem deeper_ops_outrank_witness :
    PriosInRange cexC6In ∧
    ∀ p₁ p₂, p₁ ∈ opDepthPrios cexC6In 0 0 → p₂ ∈ opDepthPrios cexC6In 0 0 →
      p₂.2 < p₁.2 → p₂.1 < p₁.1 := by
  have hsub : PriosInRange cexC6InSub := by
    refine PriosInRange.mk _ ?_ ?_
    · intro o ho
      have hoe : o = subOp3 := by
        simpa [cexC6InSub, DeepEx.bin_ops] using ho
      rw [hoe]
      exact ⟨by decide, by decide⟩
    · intro n hn e' he
      have hne : n = DeepNode.Var 0 ∨ n = DeepNode.Var 1 := by
        simpa [cexC6InSub, DeepEx.nodes] using hn
      rcases hne with h | h <;> (rw [h] at he; exact DeepNode.noConfusion he)
  have htop : PriosInRange cexC6In := by
    refine PriosInRange.mk _ ?_ ?_
    · intro o ho
      have hoe : o = subOp5 := by
        simpa [cexC6In, DeepEx.bin_ops] using ho
      rw [hoe]
      exact ⟨by decide, by decide⟩
    · intro n hn e' he
      have hne : n = DeepNode.Num 1 ∨ n = DeepNode.Expr cexC6InSub := by
        simpa [cexC6In, DeepEx.nodes] using hn
      rcases hne with h | h
      · rw [h] at he; exact DeepNode.noConfusion he
      · rw [h] at he
        cases he
        exact hsub
  exact ⟨htop, (deeper_ops_outrank_shallower cexC6In 0 htop).2⟩

theorem matchDigitsThenFrac_isSome (t : List Char) :
    (matchDigitsThenFrac t).isSome = true ↔ ∃ c r, t = c :: r ∧ c.isDigit := by
  cases t with
  | nil => simp [matchDigitsThenFrac]
  | cons c r =>
    by_cases hc : c.isDigit
    · have hsome : (matchDigitsThenFrac (c :: r)).isSome = true := by
        unfold matchDigitsThenFrac
        simp only [List.takeWhile_cons, hc, if_true]
        simp only [List.isEmpty_cons, if_false, Bool.false_eq_true]
        split
        · split <;> simp
        · simp
      simp only [hsome, true_iff]
      exact ⟨c, r, rfl, hc⟩
    · have hnone : matchDigitsThenFrac (c :: r) = none := by
        unfold matchDigitsThenFrac
        simp [List.takeWhile_cons, hc]
      simp only [hnone]
      constructor
      · intro h; exact absurd h (by simp)
      · rintro ⟨c', r', heq, hd⟩
        cases heq
        exact absurd hd hc

theorem isDigit_ne_dot {c : Char} (h : c.isDigit = true) : ¬(c = '.') := by
  intro he
  rw [he] at h
  exact absurd h (by decide)


theorem regexLeadingMatch_isSome (t : List Char) :
    (regexLeadingMatch t).isSome = true ↔
      (∃ c r, t = c :: r ∧ c.isDigit) ∨
      (∃ c2 r, t = '.' :: c2 :: r ∧ c2.isDigit) := by
  cases t with
  | nil => simp [regexLeadingMatch]
  | cons c r =>
    by_cases hc : c = '.'
    · subst hc
      have hred : regexLeadingMatch ('.' :: r) =
          (matchDigitsThenFrac r).map (fun m => '.' :: m) := rfl
      have hmap : ((matchDigitsThenFrac r).map
          (fun m => '.' :: m)).isSome = (matchDigitsThenFrac r).isSome := by
        cases matchDigitsThenFrac r <;> rfl
      rw [hred, hmap, matchDigitsThenFrac_isSome]
      constructor
      · rintro ⟨c2, r2, heq, hd⟩
        exact Or.inr ⟨c2, r2, by rw [heq], hd⟩
      · rintro (⟨c', r', heq, hd⟩ | ⟨c2, r2, heq, hd⟩)
        · cases heq
          exact absurd hd (by decide)
        · cases heq
          exact ⟨c2, r2, rfl, hd⟩
    · simp only [regexLeadingMatch, if_neg hc]
      rw [matchDigitsThenFrac_isSome]
      constructor
      · rintro ⟨c', r', heq, hd⟩
        exact Or.inl ⟨c', r', heq, hd⟩
      · rintro (⟨c', r', heq, hd⟩ | ⟨c2, r2, heq, hd⟩)
        · exact ⟨c', r', heq, hd⟩
        · cases heq
          exact absurd rfl hc


theorem numeric_accept_iff (t : List Char) :
    ((1 < (t.takeWhile isDigitOrDot).length ∧
      ((t.takeWhile isDigitOrDot).filter (fun c => c == '.')).length < 2) ∨
     ((t.takeWhile isDigitOrDot).length = 1 ∧
      ((t.takeWhile isDigitOrDot).filter (fun c => c == '.')).length = 0)) ↔
    (((t.takeWhile isDigitOrDot).filter (fun c => c == '.')).length ≤ 1 ∧
      (regexLeadingMatch t).isSome = true) := by
  rw [regexLeadingMatch_isSome]
  cases t with
  | nil => simp
  | cons c r =>
    by_cases hcd : c.isDigit
    · have hc' : isDigitOrDot c = true := by simp [isDigitOrDot, hcd]
      have hrun : (c :: r).takeWhile isDigitOrDot =
          c :: r.takeWhile isDigitOrDot := by
        rw [List.takeWhile_cons, if_pos hc']
      have hcne : (c == '.') = false := by
        simp only [beq_eq_false_iff_ne, ne_eq]
        exact isDigit_ne_dot hcd
      rw [hrun]
      have hfil : ((c :: r.takeWhile isDigitOrDot).filter
          (fun x => x == '.')) =
          (r.takeWhile isDigitOrDot).filter (fun x => x == '.') := by
        rw [List.filter_cons, hcne]
        simp
      rw [hfil]
      simp only [List.length_cons]
      have hrhs : ((∃ c' r', c :: r = c' :: r' ∧ c'.isDigit = true) ∨
          (∃ c2 r2, c :: r = '.' :: c2 :: r2 ∧ c2.isDigit = true)) :=
        Or.inl ⟨c, r, rfl, hcd⟩
      constructor
      · rintro (⟨h1, h2⟩ | ⟨h1, h2⟩) <;> exact ⟨by omega, hrhs⟩
      · rintro ⟨hd, _⟩
        by_cases hl : (r.takeWhile isDigitOrDot).length = 0
        · right
          have hemp : r.takeWhile isDigitOrDot = [] :=
            List.length_eq_zero.mp hl
          rw [hemp]
          simp
        · left
          exact ⟨by omega, by omega⟩
    · by_cases hdot : c = '.'
      · subst hdot
        have hc' : isDigitOrDot '.' = true := by decide
        have hrun : (('.' : Char) :: r).takeWhile isDigitOrDot =
            '.' :: r.takeWhile isDigitOrDot := by
          rw [List.takeWhile_cons, if_pos hc']
        rw [hrun]
        have hfil : ((('.' : Char) :: r.takeWhile isDigitOrDot).filter
            (fun x => x == '.')) =
            '.' :: (r.takeWhile isDigitOrDot).filter (fun x => x == '.') := by
          rw [List.filter_cons]
          simp
        rw [hfil]
        simp only [List.length_cons]
        have hfirst : ¬(∃ c' r', ('.' : Char) :: r = c' :: r' ∧
            c'.isDigit = true) := by
          rintro ⟨c', r', heq, hd⟩
          cases heq
          exact absurd hd (by decide)
        cases r with
        | nil =>
          simp only [List.takeWhile_nil, List.filter_nil, List.length_nil]
          constructor
          · rintro (⟨h1, _⟩ | ⟨_, h2⟩) <;> omega
          · rintro ⟨_, h | h⟩
            · exact absurd h hfirst
            · obtain ⟨c2, r2, heq, _⟩ := h
              exact List.noConfusion (List.cons.injEq .. ▸ heq).2
        | cons c2 r2 =>
          have hsecond : ((∃ c' r', ('.' : Char) :: c2 :: r2 = c' :: r' ∧
              c'.isDigit = true) ∨
              (∃ c2' r2', ('.' : Char) :: c2 :: r2 = '.' :: c2' :: r2' ∧
                c2'.isDigit = true)) ↔ c2.isDigit = true := by
            constructor
            · rintro (h | ⟨c2', r2', heq, hd⟩)
              · exact absurd h hfirst
              · obtain ⟨h1, h2⟩ := (List.cons.injEq .. ▸ heq) 
                obtain ⟨h3, h4⟩ := (List.cons.injEq .. ▸ h2)
                rw [h3]
                exact hd
            · intro hd
              exact Or.inr ⟨c2, r2, rfl, hd⟩
          rw [hsecond]
          by_cases hc2d : c2.isDigit
          · have hc2' : isDigitOrDot c2 = true := by simp [isDigitOrDot, hc2d]
            have hrun2 : (c2 :: r2).takeWhile isDigitOrDot =
                c2 :: r2.takeWhile isDigitOrDot := by
              rw [List.takeWhile_cons, if_pos hc2']
            rw [hrun2]
            have hc2ne : (c2 == '.') = false := by
              simp only [beq_eq_false_iff_ne, ne_eq]
              exact isDigit_ne_dot hc2d
            have hfil2 : ((c2 :: r2.takeWhile isDigitOrDot).filter
                (fun x => x == '.')) =
                (r2.takeWhile isDigitOrDot).filter (fun x => x == '.') := by
              rw [List.filter_cons, hc2ne]
              simp
            rw [hfil2]
            simp only [List.length_cons, hc2d]
            constructor
            · rintro (⟨_, h2⟩ | ⟨h1, _⟩)
              · exact ⟨by omega, by simp⟩
              · exact ⟨by omega, by simp⟩
            · rintro ⟨hd, _⟩
              left
              exact ⟨by omega, by omega⟩
          · by_cases hc2dot : c2 = '.'
            · subst hc2dot
              have hrun2 : (('.' : Char) :: r2).takeWhile isDigitOrDot =
                  '.' :: r2.takeWhile isDigitOrDot := by
                rw [List.takeWhile_cons, if_pos hc']
              rw [hrun2]
              have hfil2 : ((('.' : Char) :: r2.takeWhile isDigitOrDot).filter
                  (fun x => x == '.')) =
                  '.' :: (r2.takeWhile isDigitOrDot).filter
                    (fun x => x == '.') := by
                rw [List.filter_cons]
                simp
              rw [hfil2]
              simp only [List.length_cons]
              constructor
              · rintro (⟨_, h2⟩ | ⟨h1, _⟩) <;> omega
              · rintro ⟨_, h⟩
                exact absurd h (by decide)
            · have hc2' : isDigitOrDot c2 = false := by
                simp [isDigitOrDot, hc2d, hc2dot]
              have hrun2 : (c2 :: r2).takeWhile isDigitOrDot = [] := by
                rw [List.takeWhile_cons, if_neg (by simp [hc2'])]
              rw [hrun2]
              simp only [List.filter_nil, List.length_nil]
              constructor
              · rintro (⟨h1, _⟩ | ⟨_, h2⟩) <;> omega
              · rintro ⟨_, h⟩
                exact absurd h hc2d
      · have hc' : isDigitOrDot c = false := by
          simp [isDigitOrDot, hcd, hdot]
        have hrun : (c :: r).takeWhile isDigitOrDot = [] := by
          rw [List.takeWhile_cons, if_neg (by simp [hc'])]
        rw [hrun]
        simp only [List.filter_nil, List.length_nil]
        constructor
        · rintro (⟨h1, _⟩ | ⟨h1, _⟩) <;> omega
        · rintro ⟨_, h | h⟩
          · obtain ⟨c', r', heq, hd⟩ := h
            obtain ⟨h1, _⟩ := (List.cons.injEq .. ▸ heq)
            rw [h1] at hcd
            exact absurd hd hcd
          · obtain ⟨c2, r2, heq, _⟩ := h
            obtain ⟨h1, _⟩ := (List.cons.injEq .. ▸ heq)
            exact absurd h1 hdot

/-- C9 (amended): the default recognizer accepts iff the text begins
with a match of the documented default pattern `\.?[0-9]+(\.[0-9]+)?`
*and* the maximal leading run of digits and dots contains at most one
dot; the recognized literal is that entire maximal run — which extends
the regex match by a trailing dot when one immediately follows the
digits, and which is rejected entirely (despite a regex match) when a
second dot occurs in the run. -/
theorem is_numeric_text_amended (t : List Char) :
    is_numeric_text t =
      if (((t.takeWhile isDigitOrDot).filter (fun c => c == '.')).length ≤ 1 ∧
          (regexLeadingMatch t).isSome = true)
        then some (t.takeWhile isDigitOrDot) else none := by
  unfold is_numeric_text
  exact if_congr (numeric_accept_iff t) rfl rfl

/-- C9 (counterexample): `is_numeric_text` rejects `"1.2.3"` although the
text begins with a match (`"1.2"`) of the default pattern, and on `"4."`
it recognizes `"4."` while the pattern's leading match is only `"4"`. -/
theorem is_numeric_text_vs_regex_counterexample :
    is_numeric_text "1.2.3".toList = none ∧
    regexLeadingMatch "1.2.3".toList = some "1.2".toList ∧
    is_numeric_text "4.".toList = some "4.".toList ∧
    regexLeadingMatch "4.".toList = some "4".toList :=
  ⟨rfl, rfl, rfl, rfl⟩

theorem get?_eraseIdx_of_lt {α : Type} :
    ∀ (l : List α) (i j : Nat), j < i → (l.eraseIdx i).get? j = l.get? j := by
  intro l
  induction l with
  | nil => intro i j _; rfl
  | cons a l ih =>
    intro i j hj
    cases i with
    | zero => omega
    | succ i =>
      cases j with
      | zero => rfl
      | succ j =>
        simp only [List.eraseIdx_cons_succ, List.get?_cons_succ]
        exact ih i j (by omega)

theorem get?_eraseIdx_of_ge {α : Type} :
    ∀ (l : List α) (i j : Nat), i ≤ j → (l.eraseIdx i).get? j = l.get? (j + 1) := by
  intro l
  induction l with
  | nil => intro i j _; cases i <;> rfl
  | cons a l ih =>
    intro i j hj
    cases i with
    | zero => rfl
    | succ i =>
      cases j with
      | zero => omega
      | succ j =>
        simp only [List.eraseIdx_cons_succ, List.get?_cons_succ]
        exact ih i j (by omega)

theorem countBelow_append (u1 u2 : List Nat) (b : Nat) :
    countBelow (u1 ++ u2) b = countBelow u1 b + countBelow u2 b := by
  unfold countBelow
  rw [List.filter_append, List.length_append]

theorem countBelow_singleton (u b : Nat) :
    countBelow [u] b = if u < b then 1 else 0 := by
  unfold countBelow
  by_cases h : u < b <;> simp [List.filter, h]

theorem nodup_bounded_length_le (l : List Nat) (lo hi : Nat)
    (hnd : l.Nodup) (hb : ∀ x ∈ l, lo ≤ x ∧ x < hi) : l.length ≤ hi - lo := by
  have hsub : l.toFinset ⊆ Finset.Ico lo hi := by
    intro x hx
    rw [List.mem_toFinset] at hx
    rw [Finset.mem_Ico]
    exact hb x hx
  have hcard := Finset.card_le_card hsub
  rw [Nat.card_Ico] at hcard
  rwa [List.toFinset_card_of_nodup hnd] at hcard

theorem countBelow_le_self (used : List Nat) (b : Nat) (hnd : used.Nodup) :
    countBelow used b ≤ b := by
  unfold countBelow
  have := nodup_bounded_length_le (used.filter (fun u => decide (u < b))) 0 b
    (hnd.filter _) (fun x hx => ⟨Nat.zero_le x, by
      have := List.of_mem_filter hx
      simpa using this⟩)
  simpa using this

theorem countBelow_cons (u : Nat) (rest : List Nat) (b : Nat) :
    countBelow (u :: rest) b = (if u < b then 1 else 0) + countBelow rest b := by
  unfold countBelow
  rw [List.filter_cons]
  by_cases h : u < b <;> simp [h] <;> omega

theorem countBelow_mono (used : List Nat) {b b' : Nat} (h : b' ≤ b) :
    countBelow used b' ≤ countBelow used b := by
  induction used with
  | nil => exact le_refl _
  | cons u rest ih =>
    rw [countBelow_cons, countBelow_cons]
    by_cases h1 : u < b' <;> by_cases h2 : u < b <;>
      simp [h1, h2] <;> omega

theorem countBelow_gap (used : List Nat) (b b' : Nat) (hnd : used.Nodup)
    (hnb : b' ∉ used) (hlt : b' < b) :
    countBelow used b ≤ countBelow used b' + (b - b' - 1) := by
  have key : ∀ us : List Nat, b' ∉ us → countBelow us b ≤ countBelow us b' +
      (us.filter (fun u => decide (b' < u) && decide (u < b))).length := by
    intro us
    induction us with
    | nil => intro _; simp [countBelow]
    | cons u rest ih =>
      intro hnb'
      have hu_ne : u ≠ b' := by
        intro h
        exact hnb' (h ▸ List.mem_cons_self u rest)
      have ihr := ih (fun h => hnb' (List.mem_cons_of_mem _ h))
      rw [countBelow_cons, countBelow_cons, List.filter_cons]
      by_cases h1 : u < b' <;> by_cases h2 : u < b <;>
        by_cases h3 : b' < u <;>
          simp [h1, h2, h3] <;> omega
  have hbound : (used.filter
      (fun u => decide (b' < u) && decide (u < b))).length ≤ b - b' - 1 := by
    refine nodup_bounded_length_le _ (b' + 1) b (hnd.filter _) ?_
    intro x hx
    have hmem := List.of_mem_filter hx
    simp only [Bool.and_eq_true, decide_eq_true_eq] at hmem
    exact ⟨by omega, hmem.2⟩
  have := key used hnb
  omega

theorem lt_length_of_get?_eq_some {α : Type} {l : List α} {i : Nat} {a : α}
    (h : l.get? i = some a) : i < l.length := by
  by_contra hc
  rw [List.get?_eq_none.mpr (by omega)] at h
  exact Option.noConfusion h

theorem isNum_get_fold {T : Type} (nodes : List (DeepNode T)) (k₀ : Nat)
    (r : T) (j : Nat) (hk₀ : k₀ < nodes.length)
    (hk₀num : isNumNode (nodes.get? k₀)) :
    isNumNode (((nodes.set k₀ (DeepNode.Num r)).eraseIdx (k₀ + 1)).get? j) ↔
      isNumNode (nodes.get? (if k₀ + 1 ≤ j then j + 1 else j)) := by
  by_cases hj : k₀ + 1 ≤ j
  · rw [if_pos hj, get?_eraseIdx_of_ge _ _ _ hj,
      List.get?_set_ne _ _ (by omega : k₀ ≠ j + 1)]
  · rw [if_neg hj, get?_eraseIdx_of_lt _ _ _ (by omega)]
    by_cases hjk : j = k₀
    · subst hjk
      rw [List.get?_set_eq_of_lt _ hk₀]
      constructor
      · intro _; exact hk₀num
      · intro _; trivial
    · rw [List.get?_set_ne _ _ (fun h => hjk h.symm)]

theorem bothNumAt_fold {T : Type} (nodes : List (DeepNode T)) (k₀ k : Nat)
    (r a c : T)
    (ha : nodes.get? k₀ = some (DeepNode.Num a))
    (hc : nodes.get? (k₀ + 1) = some (DeepNode.Num c))
    (hne : k ≠ k₀) :
    bothNumAt ((nodes.set k₀ (DeepNode.Num r)).eraseIdx (k₀ + 1))
        (if k₀ < k then k - 1 else k) ↔
      bothNumAt nodes k := by
  have hk₀ : k₀ < nodes.length := lt_length_of_get?_eq_some ha
  have h0 : isNumNode (nodes.get? k₀) := by rw [ha]; trivial
  have h1 : isNumNode (nodes.get? (k₀ + 1)) := by rw [hc]; trivial
  unfold bothNumAt
  rcases Nat.lt_or_ge k k₀ with hlt | hge
  · rw [if_neg (by omega)]
    rw [isNum_get_fold nodes k₀ r k hk₀ h0,
      isNum_get_fold nodes k₀ r (k + 1) hk₀ h0]
    rw [if_neg (by omega), if_neg (by omega)]
  · have hgt : k₀ < k := by omega
    rw [if_pos hgt]
    rw [isNum_get_fold nodes k₀ r (k - 1) hk₀ h0,
      isNum_get_fold nodes k₀ r (k - 1 + 1) hk₀ h0]
    by_cases hk1 : k = k₀ + 1
    · subst hk1
      rw [if_neg (by omega), if_pos (by omega)]
      have e1 : k₀ + 1 - 1 = k₀ := by omega
      rw [e1]
      constructor
      · intro hh; exact ⟨h1, hh.2⟩
      · intro hh; exact ⟨h0, hh.2⟩
    · rw [if_pos (by omega), if_pos (by omega)]
      have e1 : k - 1 + 1 = k := by omega
      rw [e1]

theorem foldLoopGo_cons_fold {T : Type} (ops : List (BinOp T)) (fuel : Nat)
    (nodes : List (DeepNode T)) (b k : Nat) (rest : List (Nat × Nat))
    (used : List Nat) (a c : T)
    (ha : nodes.get? k = some (DeepNode.Num a))
    (hc : nodes.get? (k + 1) = some (DeepNode.Num c)) :
    foldLoopGo ops (fuel + 1) nodes ((b, k) :: rest) used =
      foldLoopGo ops fuel
        ((nodes.set k (DeepNode.Num (match ops.get? b with
          | some o => o.apply a c
          | none => a))).eraseIdx (k + 1))
        (rest.map fun p => (p.1, if k < p.2 then p.2 - 1 else p.2))
        (used ++ [b]) := by
  conv_lhs => rw [foldLoopGo]
  rw [ha, hc]

theorem foldLoopGo_cons_break {T : Type} (ops : List (BinOp T)) (fuel : Nat)
    (nodes : List (DeepNode T)) (b k : Nat) (rest : List (Nat × Nat))
    (used : List Nat) (hnot : ¬bothNumAt nodes k) :
    foldLoopGo ops (fuel + 1) nodes ((b, k) :: rest) used =
      (nodes, (b, k) :: rest, used) := by
  conv_lhs => rw [foldLoopGo]
  cases h1 : nodes.get? k with
  | none => rfl
  | some n1 =>
    cases n1 with
    | Num a =>
      cases h2 : nodes.get? (k + 1) with
      | none => rfl
      | some n2 =>
        cases n2 with
        | Num c =>
          exact absurd ⟨by rw [h1]; trivial, by rw [h2]; trivial⟩ hnot
        | Var i => rfl
        | Expr e => rfl
    | Var i => rfl
    | Expr e => rfl

theorem isNumNode_iff {T : Type} (o : Option (DeepNode T)) :
    isNumNode o ↔ ∃ a, o = some (DeepNode.Num a) := by
  cases o with
  | none => simp [isNumNode]
  | some n => cases n <;> simp [isNumNode]

theorem foldLoopGo_spec {T : Type} (ops : List (BinOp T)) (N : Nat)
    (P : Nat → Prop) (Q : DeepNode T → Prop)
    (hQ : ∀ r : T, Q (DeepNode.Num r)) :
    ∀ (fuel : Nat) (nodes : List (DeepNode T)) (pairs : List (Nat × Nat))
      (used : List Nat),
    pairs.length ≤ fuel →
    nodes.length + used.length = N + 1 →
    (used ++ pairs.map Prod.fst).Nodup →
    (∀ b ∈ used ++ pairs.map Prod.fst, b < N) →
    (∀ p ∈ pairs, p.2 = p.1 - countBelow used p.1) →
    (∀ p ∈ pairs, (bothNumAt nodes p.2 ↔ P p.1)) →
    (∀ n ∈ nodes, Q n) →
    ∀ nodes' rem used',
    foldLoopGo ops fuel nodes pairs used = (nodes', rem, used') →
    nodes'.length + used'.length = N + 1 ∧
    (∃ i, i + rem.length = pairs.length ∧
      used' = used ++ (pairs.map Prod.fst).take i ∧
      rem.map Prod.fst = (pairs.map Prod.fst).drop i) ∧
    (∀ p ∈ rem, p.2 = p.1 - countBelow used' p.1) ∧
    (∀ p ∈ rem, (bothNumAt nodes' p.2 ↔ P p.1)) ∧
    (∀ n ∈ nodes', Q n) ∧
    (∀ b k r2, rem = (b, k) :: r2 → ¬bothNumAt nodes' k) := by
  intro fuel
  induction fuel with
  | zero =>
    intro nodes pairs used hfuel hlen _hnd _hbound hpos hkind hQall
    intro nodes' rem used' heq
    have hp0 : pairs = [] := List.length_eq_zero.mp (by omega)
    subst hp0
    have hred : foldLoopGo ops 0 nodes [] used = (nodes, [], used) := rfl
    rw [hred] at heq
    injection heq with h1 h23
    injection h23 with h2 h3
    subst h1; subst h2; subst h3
    refine ⟨hlen, ⟨0, by simp⟩, hpos, hkind, hQall, ?_⟩
    intro b k r2 hcons
    exact absurd hcons (by simp)
  | succ fuel ih =>
    intro nodes pairs used hfuel hlen hnd hbound hpos hkind hQall
    intro nodes' rem used' heq
    cases pairs with
    | nil =>
      have hred : foldLoopGo ops (fuel + 1) nodes [] used = (nodes, [], used) := rfl
      rw [hred] at heq
      injection heq with h1 h23
      injection h23 with h2 h3
      subst h1; subst h2; subst h3
      refine ⟨hlen, ⟨0, by simp⟩, hpos, hkind, hQall, ?_⟩
      intro b k r2 hcons
      exact absurd hcons (by simp)
    | cons hd rest =>
      obtain ⟨b, k⟩ := hd
      simp only [List.map_cons] at hnd hbound
      by_cases hbn : bothNumAt nodes k
      · obtain ⟨a, ha⟩ := (isNumNode_iff _).mp hbn.1
        obtain ⟨c, hc⟩ := (isNumNode_iff _).mp hbn.2
        rw [foldLoopGo_cons_fold ops fuel nodes b k rest used a c ha hc] at heq
        generalize hrv : (match ops.get? b with
          | some o => o.apply a c
          | none => a) = rv at heq
        have hk1nodes : k + 1 < nodes.length := lt_length_of_get?_eq_some hc
        have hdisj := List.disjoint_of_nodup_append hnd
        have hnd_r : (b :: rest.map Prod.fst).Nodup := hnd.of_append_right
        have hndu : used.Nodup := hnd.of_append_left
        have hb_used : b ∉ used := fun hmem => hdisj hmem (List.mem_cons_self _ _)
        have hbnot_rest : b ∉ rest.map Prod.fst := (List.nodup_cons.mp hnd_r).1
        have hkpos : k = b - countBelow used b := hpos (b, k) (List.mem_cons_self _ _)
        have hbN : b < N := hbound b (List.mem_append_right _ (List.mem_cons_self _ _))
        have cb_le_b : countBelow used b ≤ b := countBelow_le_self used b hndu
        have hmf : ((rest.map fun p => (p.1, if k < p.2 then p.2 - 1 else p.2)).map
            Prod.fst) = rest.map Prod.fst := by
          rw [List.map_map]; rfl
        have hfacts : ∀ p ∈ rest, p.1 ∉ used ∧ p.1 ≠ b ∧ p.1 < N ∧
            countBelow used p.1 ≤ p.1 ∧ p.2 = p.1 - countBelow used p.1 ∧
            (b < p.1 → countBelow used p.1 ≤ countBelow used b + (p.1 - b - 1)) ∧
            (p.1 < b → countBelow used b ≤ countBelow used p.1 + (b - p.1 - 1)) := by
          intro p hpmem
          have hp1mem : p.1 ∈ rest.map Prod.fst := List.mem_map_of_mem Prod.fst hpmem
          have hp1nu : p.1 ∉ used := fun h => hdisj h (List.mem_cons_of_mem _ hp1mem)
          have hp1nb : p.1 ≠ b := fun h => hbnot_rest (h ▸ hp1mem)
          refine ⟨hp1nu, hp1nb, ?_, countBelow_le_self used p.1 hndu,
            hpos p (List.mem_cons_of_mem _ hpmem), ?_, ?_⟩
          · exact hbound p.1 (List.mem_append_right _ (List.mem_cons_of_mem _ hp1mem))
          · intro hcase
            exact countBelow_gap used p.1 b hndu hb_used hcase
          · intro hcase
            exact countBelow_gap used b p.1 hndu hp1nu hcase
        have hne_all : ∀ p ∈ rest, p.2 ≠ k := by
          intro p hpmem
          obtain ⟨_, hp1nb, _, hcb, hpp, hg1, hg2⟩ := hfacts p hpmem
          by_cases hcase : b < p.1
          · have := hg1 hcase; omega
          · have hlt : p.1 < b := by omega
            have := hg2 hlt; omega
        have ihres := ih ((nodes.set k (DeepNode.Num rv)).eraseIdx (k + 1))
          (rest.map fun p => (p.1, if k < p.2 then p.2 - 1 else p.2))
          (used ++ [b])
          (by rw [List.length_map]; simp at hfuel; omega)
          (by
            have hsetlen : ((nodes.set k (DeepNode.Num rv)).eraseIdx
                (k + 1)).length = nodes.length - 1 := by
              rw [List.length_eraseIdx]
              simp [List.length_set, hk1nodes]
            rw [hsetlen, List.length_append, List.length_cons, List.length_nil]
            omega)
          (by
            rw [hmf, List.append_assoc, List.singleton_append]
            exact hnd)
          (by
            rw [hmf]
            intro x hx
            rw [List.append_assoc, List.singleton_append] at hx
            exact hbound x hx)
          (by
            intro p' hp'
            obtain ⟨p, hpmem, rfl⟩ := List.mem_map.mp hp'
            obtain ⟨hp1nu, hp1nb, hp1N, hcb, hpp, hg1, hg2⟩ := hfacts p hpmem
            show (if k < p.2 then p.2 - 1 else p.2) =
              p.1 - countBelow (used ++ [b]) p.1
            rw [countBelow_append, countBelow_singleton]
            by_cases hcase : b < p.1
            · have hgap := hg1 hcase
              rw [if_pos (show k < p.2 by omega), if_pos hcase]
              omega
            · have hlt : p.1 < b := by omega
              have hgap := hg2 hlt
              rw [if_neg (show ¬k < p.2 by omega), if_neg hcase]
              omega)
          (by
            intro p' hp'
            obtain ⟨p, hpmem, rfl⟩ := List.mem_map.mp hp'
            show bothNumAt ((nodes.set k (DeepNode.Num rv)).eraseIdx (k + 1))
              (if k < p.2 then p.2 - 1 else p.2) ↔ P p.1
            rw [bothNumAt_fold nodes k p.2 rv a c ha hc (hne_all p hpmem)]
            exact hkind p (List.mem_cons_of_mem _ hpmem))
          (by
            intro n hn'
            have h2 := List.mem_of_mem_eraseIdx hn'
            rcases List.mem_or_eq_of_mem_set h2 with h3 | h3
            · exact hQall n h3
            · rw [h3]; exact hQ rv)
          nodes' rem used' heq
        obtain ⟨c1, ⟨i', hi1, hi2, hi3⟩, c3, c4, c5, c6⟩ := ihres
        rw [List.length_map] at hi1
        rw [hmf] at hi2 hi3
        refine ⟨c1, ⟨i' + 1, ?_, ?_, ?_⟩, c3, c4, c5, c6⟩
        · simp only [List.length_cons]; omega
        · rw [List.append_assoc, List.singleton_append] at hi2
          simpa only [List.map_cons, List.take_succ_cons] using hi2
        · simpa only [List.map_cons, List.drop_succ_cons] using hi3
      · rw [foldLoopGo_cons_break ops fuel nodes b k rest used hbn] at heq
        injection heq with h1 h23
        injection h23 with h2 h3
        subst h1; subst h2; subst h3
        refine ⟨hlen, ⟨0, by simp⟩, hpos, hkind, hQall, ?_⟩
        intro b' k' r2 hcons
        injection hcons with hhd _
        injection hhd with hb hk
        rw [← hk]
        exact hbn

theorem filterByIdxFrom_shift {α : Type} (p : Nat → Bool) :
    ∀ (l : List α) (s : Nat),
    filterByIdxFrom p (s + 1) l = filterByIdxFrom (fun i => p (i + 1)) s l := by
  intro l
  induction l with
  | nil => intro s; rfl
  | cons a rest ih =>
    intro s
    simp only [filterByIdxFrom]
    rw [ih (s + 1)]

theorem filterByIdx_cons {α : Type} (p : Nat → Bool) (a : α) (l : List α) :
    filterByIdx (a :: l) p =
      if p 0 then a :: filterByIdx l (fun i => p (i + 1))
      else filterByIdx l (fun i => p (i + 1)) := by
  unfold filterByIdx
  simp only [filterByIdxFrom]
  rw [filterByIdxFrom_shift]

theorem countTrueBelow_succ (p : Nat → Bool) (b : Nat) :
    countTrueBelow p (b + 1) =
      (if p 0 then 1 else 0) + countTrueBelow (fun i => p (i + 1)) b := by
  unfold countTrueBelow
  rw [List.range_succ_eq_map, List.filter_cons, List.filter_map]
  have hc : (List.range b).filter (p ∘ Nat.succ) =
      (List.range b).filter (fun i => p (i + 1)) :=
    List.filter_congr (fun a _ => rfl)
  by_cases h : p 0 <;> simp [h, hc] <;> omega

theorem filterByIdx_length {α : Type} :
    ∀ (l : List α) (p : Nat → Bool),
    (filterByIdx l p).length = countTrueBelow p l.length := by
  intro l
  induction l with
  | nil => intro p; rfl
  | cons a rest ih =>
    intro p
    rw [filterByIdx_cons, List.length_cons, countTrueBelow_succ]
    by_cases h : p 0 <;> simp [h, ih] <;> omega

theorem filterByIdx_get {α : Type} :
    ∀ (l : List α) (p : Nat → Bool) (b : Nat),
    p b = true → b < l.length →
    (filterByIdx l p).get? (countTrueBelow p b) = l.get? b := by
  intro l
  induction l with
  | nil => intro p b _ hb; simp at hb
  | cons a rest ih =>
    intro p b hpb hb
    cases b with
    | zero => rw [filterByIdx_cons, if_pos hpb]; rfl
    | succ b' =>
      rw [filterByIdx_cons, countTrueBelow_succ]
      simp only [List.length_cons] at hb
      by_cases h : p 0
      · rw [if_pos h, if_pos h, Nat.add_comm]
        exact ih (fun i => p (i + 1)) b' hpb (by omega)
      · rw [if_neg h, if_neg h, Nat.zero_add]
        exact ih (fun i => p (i + 1)) b' hpb (by omega)

theorem filterByIdx_all_true {α : Type} :
    ∀ (l : List α) (p : Nat → Bool), (∀ i, p i = true) → filterByIdx l p = l := by
  intro l
  induction l with
  | nil => intro p _; rfl
  | cons a rest ih =>
    intro p hp
    rw [filterByIdx_cons, if_pos (hp 0), ih _ (fun i => hp (i + 1))]

theorem countTrueBelow_notMem (us : List Nat) (b : Nat) (hnd : us.Nodup) :
    countTrueBelow (fun i => decide (i ∉ us)) b = b - countBelow us b := by
  have hsplit := @List.length_eq_length_filter_add Nat (List.range b)
    (fun i => decide (i ∉ us))
  rw [List.length_range] at hsplit
  have hmem : ((List.range b).filter (fun i => !decide (i ∉ us))).length =
      countBelow us b := by
    have heqf : (List.range b).filter (fun i => !decide (i ∉ us)) =
        (List.range b).filter (fun i => decide (i ∈ us)) :=
      List.filter_congr (fun a _ => by simp)
    rw [heqf]
    have h1 : ((List.range b).filter (fun i => decide (i ∈ us))).Nodup :=
      (List.nodup_range b).filter _
    have h2 : (us.filter (fun u => decide (u < b))).Nodup := hnd.filter _
    have h3 : ((List.range b).filter (fun i => decide (i ∈ us))).toFinset =
        (us.filter (fun u => decide (u < b))).toFinset := by
      ext x
      simp only [List.mem_toFinset, List.mem_filter, List.mem_range,
        decide_eq_true_eq]
      tauto
    unfold countBelow
    rw [← List.toFinset_card_of_nodup h1, ← List.toFinset_card_of_nodup h2, h3]
  unfold countTrueBelow at *
  omega

theorem filterByIdx_surviv_get? {α : Type} (l : List α) (us : List Nat)
    (b : Nat) (hnd : us.Nodup) (hb : b ∉ us) (hbl : b < l.length) :
    (filterByIdx l (fun i => decide (i ∉ us))).get? (b - countBelow us b) =
      l.get? b := by
  rw [← countTrueBelow_notMem us b hnd]
  exact filterByIdx_get l _ b (by simp [hb]) hbl

theorem newIdx_lt_of_lt (us : List Nat) (b b' : Nat) (hnd : us.Nodup)
    (hb : b ∉ us) (hlt : b < b') :
    b - countBelow us b < b' - countBelow us b' := by
  have hgap := countBelow_gap us b' b hnd hb hlt
  have h1 := countBelow_le_self us b hnd
  omega

theorem survivor_newIdx_lt (us : List Nat) (N b : Nat) (hnd : us.Nodup)
    (hub : ∀ u ∈ us, u < N) (hb : b ∉ us) (hbN : b < N) :
    b - countBelow us b < N - us.length := by
  have hsplit := @List.length_eq_length_filter_add Nat us
    (fun u => decide (u < b))
  have hup : (us.filter (fun u => !decide (u < b))).length ≤ N - (b + 1) := by
    apply nodup_bounded_length_le _ (b + 1) N (hnd.filter _)
    intro x hx
    have hxm := List.mem_filter.mp hx
    have hxus := hxm.1
    have hxge : ¬(x < b) := by simpa using hxm.2
    have hxne : x ≠ b := fun h => hb (h ▸ hxus)
    exact ⟨by omega, hub x hxus⟩
  have hcb : countBelow us b ≤ b := countBelow_le_self us b hnd
  unfold countBelow at *
  omega

theorem deepKey_of_both {T : Type} (ops : List (BinOp T))
    (nodes : List (DeepNode T)) (i : Nat) (h : bothNumAt nodes i) :
    deepKey ops nodes i = opPrioAt ops i * 10 + 5 := by
  obtain ⟨a, ha⟩ := (isNumNode_iff _).mp h.1
  obtain ⟨c, hc⟩ := (isNumNode_iff _).mp h.2
  unfold deepKey opPrioAt
  rw [ha, hc]

theorem deepKey_of_not_both {T : Type} (ops : List (BinOp T))
    (nodes : List (DeepNode T)) (i : Nat) (h : ¬bothNumAt nodes i) :
    deepKey ops nodes i = opPrioAt ops i * 10 := by
  unfold deepKey opPrioAt
  cases hh1 : nodes.get? i with
  | none => rfl
  | some n1 =>
    cases hh2 : nodes.get? (i + 1) with
    | none => cases n1 <;> rfl
    | some n2 =>
      cases n1 with
      | Num a =>
        cases n2 with
        | Num c =>
          exact absurd ⟨by rw [hh1]; trivial, by rw [hh2]; trivial⟩ h
        | Var j => rfl
        | Expr e => rfl
      | Var j => cases n2 <;> rfl
      | Expr e => cases n2 <;> rfl

theorem countBelow_nil (b : Nat) : countBelow [] b = 0 := rfl

theorem zip_self_fst_eq_snd {α : Type} :
    ∀ (l : List α), ∀ p ∈ l.zip l, p.1 = p.2 := by
  intro l
  induction l with
  | nil => intro p hp; simp at hp
  | cons a rest ih =>
    intro p hp
    rw [List.zip_cons_cons] at hp
    rcases List.mem_cons.mp hp with h | h
    · rw [h]
    · exact ih p h

theorem prioritized_indices_perm {T : Type} (bops : List (BinOp T))
    (nodes : List (DeepNode T)) :
    (prioritized_indices bops nodes).Perm (List.range bops.length) := by
  unfold prioritized_indices stableDescSort
  exact List.perm_insertionSort _ _

theorem prioritized_indices_sorted {T : Type} (bops : List (BinOp T))
    (nodes : List (DeepNode T)) :
    (prioritized_indices bops nodes).Sorted
      (keyOrder (deepKey bops nodes)) := by
  unfold prioritized_indices stableDescSort
  exact List.sorted_insertionSort _ _

theorem foldLoopFull_compile_spec {T : Type} (bops : List (BinOp T))
    (nodes1 : List (DeepNode T)) (Q : DeepNode T → Prop)
    (hQ : ∀ r : T, Q (DeepNode.Num r))
    (hlen1 : nodes1.length = bops.length + 1)
    (hQall : ∀ n ∈ nodes1, Q n)
    (nodes2 : List (DeepNode T)) (rem : List (Nat × Nat)) (used' : List Nat)
    (hres : foldLoopFull bops nodes1
      ((prioritized_indices bops nodes1).zip (prioritized_indices bops nodes1))
      [] = (nodes2, rem, used')) :
    nodes2.length + used'.length = bops.length + 1 ∧
    (∃ i, i + rem.length = bops.length ∧
      used' = (prioritized_indices bops nodes1).take i ∧
      rem.map Prod.fst = (prioritized_indices bops nodes1).drop i) ∧
    (∀ p ∈ rem, p.2 = p.1 - countBelow used' p.1) ∧
    (∀ p ∈ rem, (bothNumAt nodes2 p.2 ↔ bothNumAt nodes1 p.1)) ∧
    (∀ n ∈ nodes2, Q n) ∧
    (∀ b k r2, rem = (b, k) :: r2 → ¬bothNumAt nodes2 k) := by
  have hperm := prioritized_indices_perm bops nodes1
  have hnd : (prioritized_indices bops nodes1).Nodup :=
    hperm.nodup_iff.mpr (List.nodup_range _)
  have hbound : ∀ b ∈ prioritized_indices bops nodes1, b < bops.length :=
    fun b hb => List.mem_range.mp (hperm.mem_iff.mp hb)
  have hlenpri : (prioritized_indices bops nodes1).length = bops.length := by
    rw [hperm.length_eq, List.length_range]
  have hzipfst : ((prioritized_indices bops nodes1).zip
      (prioritized_indices bops nodes1)).map Prod.fst =
      prioritized_indices bops nodes1 :=
    List.map_fst_zip _ _ (le_refl _)
  have hziplen : ((prioritized_indices bops nodes1).zip
      (prioritized_indices bops nodes1)).length =
      (prioritized_indices bops nodes1).length := by
    rw [List.length_zip, min_self]
  unfold foldLoopFull at hres
  have hspec := foldLoopGo_spec bops bops.length (fun b => bothNumAt nodes1 b)
    Q hQ
    ((prioritized_indices bops nodes1).zip
      (prioritized_indices bops nodes1)).length
    nodes1
    ((prioritized_indices bops nodes1).zip (prioritized_indices bops nodes1))
    []
    (le_refl _)
    (by simpa using hlen1)
    (by rw [List.nil_append, hzipfst]; exact hnd)
    (by
      intro b hb
      rw [List.nil_append, hzipfst] at hb
      exact hbound b hb)
    (by
      intro p hp
      rw [countBelow_nil, Nat.sub_zero]
      exact (zip_self_fst_eq_snd _ p hp).symm)
    (by
      intro p hp
      rw [← zip_self_fst_eq_snd _ p hp])
    hQall nodes2 rem used' hres
  obtain ⟨c1, ⟨i, hi1, hi2, hi3⟩, c3, c4, c5, c6⟩ := hspec
  refine ⟨c1, ⟨i, ?_, ?_, ?_⟩, c3, c4, c5, c6⟩
  · rw [hziplen, hlenpri] at hi1; exact hi1
  · rw [hi2, List.nil_append, hzipfst]
  · rw [hi3, hzipfst]

theorem filterByIdx_notMem_length {α : Type} (l : List α) (us : List Nat)
    (hnd : us.Nodup) (hb : ∀ u ∈ us, u < l.length) :
    (filterByIdx l (fun i => decide (i ∉ us))).length = l.length - us.length := by
  rw [filterByIdx_length, countTrueBelow_notMem us l.length hnd]
  have hcbN : countBelow us l.length = us.length := by
    unfold countBelow
    rw [List.filter_eq_self.mpr]
    intro u hu
    simp [hb u hu]
  rw [hcbN]

theorem run2_prios {T : Type} (bops : List (BinOp T))
    (nodes1 nodes2 : List (DeepNode T)) (rem : List (Nat × Nat))
    (used' : List Nat)
    (hlen1 : nodes1.length = bops.length + 1)
    (hres : foldLoopFull bops nodes1
      ((prioritized_indices bops nodes1).zip (prioritized_indices bops nodes1))
      [] = (nodes2, rem, used')) :
    prioritized_indices (filterByIdx bops (fun i => decide (i ∉ used')))
      nodes2 = rem.map Prod.snd := by
  obtain ⟨c1, ⟨i, hi1, hi2, hi3⟩, c3, c4, c5, c6⟩ :=
    foldLoopFull_compile_spec bops nodes1 (fun _ => True) (fun _ => trivial)
      hlen1 (fun _ _ => trivial) nodes2 rem used' hres
  have hperm := prioritized_indices_perm bops nodes1
  have hnd : (prioritized_indices bops nodes1).Nodup :=
    hperm.nodup_iff.mpr (List.nodup_range _)
  have hbound : ∀ b ∈ prioritized_indices bops nodes1, b < bops.length :=
    fun b hb => List.mem_range.mp (hperm.mem_iff.mp hb)
  have hlenpri : (prioritized_indices bops nodes1).length = bops.length := by
    rw [hperm.length_eq, List.length_range]
  have hcat : used' ++ rem.map Prod.fst = prioritized_indices bops nodes1 := by
    rw [hi2, hi3, List.take_append_drop]
  have hnd_all : (used' ++ rem.map Prod.fst).Nodup := by
    rw [hcat]; exact hnd
  have hndu : used'.Nodup := hnd_all.of_append_left
  have hndS : (rem.map Prod.fst).Nodup := hnd_all.of_append_right
  have hdisj := List.disjoint_of_nodup_append hnd_all
  have hbound_u : ∀ u ∈ used', u < bops.length := fun u hu =>
    hbound u (by rw [← hcat]; exact List.mem_append_left _ hu)
  have hbound_S : ∀ b ∈ rem.map Prod.fst, b < bops.length := fun b hb =>
    hbound b (by rw [← hcat]; exact List.mem_append_right _ hb)
  have hnotin_S : ∀ b ∈ rem.map Prod.fst, b ∉ used' := fun b hb hbu =>
    hdisj hbu hb
  have hlen_u : used'.length = i := by
    rw [hi2, List.length_take, hlenpri]
    omega
  have hlen_S : (rem.map Prod.fst).length = bops.length - i := by
    rw [hi3, List.length_drop, hlenpri]
  have hops2len : (filterByIdx bops (fun j => decide (j ∉ used'))).length =
      bops.length - used'.length :=
    filterByIdx_notMem_length bops used' hndu hbound_u
  have hsnd : rem.map Prod.snd =
      (rem.map Prod.fst).map (fun b => b - countBelow used' b) := by
    rw [List.map_map]
    apply List.map_congr_left
    intro p hp
    exact c3 p hp
  have hndmap : ((rem.map Prod.fst).map
      (fun b => b - countBelow used' b)).Nodup := by
    apply hndS.map_on
    intro x hx y hy hxy
    by_contra hne
    rcases Nat.lt_trichotomy x y with h | h | h
    · have := newIdx_lt_of_lt used' x y hndu (hnotin_S x hx) h; omega
    · exact hne h
    · have := newIdx_lt_of_lt used' y x hndu (hnotin_S y hy) h; omega
  have hboundmap : ∀ j ∈ (rem.map Prod.fst).map
      (fun b => b - countBelow used' b),
      j < (filterByIdx bops (fun j => decide (j ∉ used'))).length := by
    intro j hj
    obtain ⟨b, hb, rfl⟩ := List.mem_map.mp hj
    rw [hops2len]
    exact survivor_newIdx_lt used' bops.length b hndu hbound_u
      (hnotin_S b hb) (hbound_S b hb)
  have hlenmap : ((rem.map Prod.fst).map
      (fun b => b - countBelow used' b)).length =
      (filterByIdx bops (fun j => decide (j ∉ used'))).length := by
    rw [List.length_map, hlen_S, hops2len, hlen_u]
  have hpermmap : ((rem.map Prod.fst).map
      (fun b => b - countBelow used' b)).Perm
      (List.range (filterByIdx bops (fun j => decide (j ∉ used'))).length) := by
    apply List.perm_of_nodup_nodup_toFinset_eq hndmap (List.nodup_range _)
    have hrange : (List.range (filterByIdx bops
        (fun j => decide (j ∉ used'))).length).toFinset =
        Finset.range (filterByIdx bops (fun j => decide (j ∉ used'))).length := by
      ext j
      simp [List.mem_toFinset, List.mem_range, Finset.mem_range]
    rw [hrange]
    apply Finset.eq_of_subset_of_card_le
    · intro j hj
      rw [List.mem_toFinset] at hj
      rw [Finset.mem_range]
      exact hboundmap j hj
    · rw [Finset.card_range, List.toFinset_card_of_nodup hndmap, hlenmap]
  have hkeyP : ∀ b ∈ rem.map Prod.fst,
      deepKey (filterByIdx bops (fun j => decide (j ∉ used'))) nodes2
        (b - countBelow used' b) = deepKey bops nodes1 b := by
    intro b hb
    have hbn : b ∉ used' := hnotin_S b hb
    have hbN : b < bops.length := hbound_S b hb
    have hprio : opPrioAt (filterByIdx bops (fun j => decide (j ∉ used')))
        (b - countBelow used' b) = opPrioAt bops b := by
      unfold opPrioAt
      rw [filterByIdx_surviv_get? bops used' b hndu hbn hbN]
    have hbonus : bothNumAt nodes2 (b - countBelow used' b) ↔
        bothNumAt nodes1 b := by
      obtain ⟨p, hp, hpb⟩ := List.mem_map.mp hb
      have h2 := c3 p hp
      have h4 := c4 p hp
      rw [← hpb, ← h2]
      exact h4
    by_cases hbn2 : bothNumAt nodes1 b
    · rw [deepKey_of_both _ _ _ (hbonus.mpr hbn2),
        deepKey_of_both _ _ _ hbn2, hprio]
    · rw [deepKey_of_not_both _ _ _ (fun h => hbn2 (hbonus.mp h)),
        deepKey_of_not_both _ _ _ hbn2, hprio]
  have hsortS : (rem.map Prod.fst).Sorted (keyOrder (deepKey bops nodes1)) := by
    rw [hi3]
    exact (prioritized_indices_sorted bops nodes1).sublist
      (List.drop_sublist _ _)
  have hsortmap : ((rem.map Prod.fst).map
      (fun b => b - countBelow used' b)).Sorted
      (keyOrder (deepKey (filterByIdx bops (fun j => decide (j ∉ used')))
        nodes2)) := by
    apply List.pairwise_map.mpr
    apply List.Pairwise.imp_of_mem ?_ hsortS
    intro a b ha hb hab
    have hka := hkeyP a ha
    have hkb := hkeyP b hb
    unfold keyOrder at hab ⊢
    rw [hka, hkb]
    rcases hab with h | ⟨h1, h2⟩
    · left; exact h
    · right
      refine ⟨h1, ?_⟩
      rcases Nat.eq_or_lt_of_le h2 with he | hl
      · rw [he]
      · exact le_of_lt (newIdx_lt_of_lt used' a b hndu (hnotin_S a ha) hl)
  have hsorted2 := prioritized_indices_sorted
    (filterByIdx bops (fun j => decide (j ∉ used'))) nodes2
  have hperm2 := prioritized_indices_perm
    (filterByIdx bops (fun j => decide (j ∉ used'))) nodes2
  have hpermfinal : (prioritized_indices
      (filterByIdx bops (fun j => decide (j ∉ used'))) nodes2).Perm
      ((rem.map Prod.fst).map (fun b => b - countBelow used' b)) :=
    hperm2.trans hpermmap.symm
  rw [hsnd]
  exact List.eq_of_perm_of_sorted hpermfinal hsorted2 hsortmap

theorem phaseA_eq_map {T : Type} (nodes : List (DeepNode T)) :
    phaseA nodes = nodes.map phaseANode := rfl

theorem phaseANode_idem {T : Type} (n : DeepNode T) :
    phaseANode (phaseANode n) = phaseANode n := by
  cases n with
  | Num a => rfl
  | Var i => rfl
  | Expr e =>
    cases e with
    | mk ns bo uo pr ov =>
      cases ns with
      | nil => rfl
      | cons n1 rest =>
        cases rest with
        | nil => cases n1 <;> rfl
        | cons n2 rest2 => cases n1 <;> rfl

theorem foldLoopFull_break {T : Type} (ops : List (BinOp T))
    (nodes : List (DeepNode T)) (pairs : List (Nat × Nat)) (used : List Nat)
    (h : pairs = [] ∨ ∃ b k r2, pairs = (b, k) :: r2 ∧ ¬bothNumAt nodes k) :
    foldLoopFull ops nodes pairs used = (nodes, pairs, used) := by
  rcases h with h | ⟨b, k, r2, hp, hn⟩
  · subst h; rfl
  · subst hp
    unfold foldLoopFull
    exact foldLoopGo_cons_break ops r2.length nodes b k r2 used hn

theorem compile_eq_of_fold {T : Type} (nodes0 nodes1 nodes2 : List (DeepNode T))
    (rs : List String) (ops : List (BinOp T)) (uop : UnaryOpWithReprs T)
    (pr : List Nat) (ovl : Option (OverloadedOps T))
    (rem : List (Nat × Nat)) (used' : List Nat)
    (hph : phaseA nodes0 = nodes1)
    (hres : foldLoopFull ops nodes1
      ((prioritized_indices ops nodes1).zip (prioritized_indices ops nodes1)) []
      = (nodes2, rem, used'))
    (hns : ∀ n : T, nodes2 ≠ [DeepNode.Num n]) :
    compile (DeepEx.mk nodes0 ⟨rs, ops⟩ uop pr ovl) =
      DeepEx.mk nodes2 ⟨rs, filterByIdx ops (fun i => decide (i ∉ used'))⟩ uop
        (prioritized_indices (filterByIdx ops (fun i => decide (i ∉ used')))
          nodes2) ovl := by
  simp only [compile]
  rw [hph, hres]
  rcases nodes2 with _ | ⟨n1, rest⟩
  · rfl
  · rcases n1 with a | i | e
    · rcases rest with _ | ⟨n2, rest2⟩
      · exact absurd rfl (hns a)
      · rfl
    · rcases rest with _ | ⟨n2, rest2⟩ <;> rfl
    · rcases rest with _ | ⟨n2, rest2⟩ <;> rfl

theorem compile_eq_of_fold_num {T : Type}
    (nodes0 nodes1 : List (DeepNode T))
    (rs : List String) (ops : List (BinOp T)) (uop : UnaryOpWithReprs T)
    (pr : List Nat) (ovl : Option (OverloadedOps T))
    (rem : List (Nat × Nat)) (used' : List Nat) (n : T)
    (hph : phaseA nodes0 = nodes1)
    (hres : foldLoopFull ops nodes1
      ((prioritized_indices ops nodes1).zip (prioritized_indices ops nodes1)) []
      = ([DeepNode.Num n], rem, used')) :
    compile (DeepEx.mk nodes0 ⟨rs, ops⟩ uop pr ovl) =
      DeepEx.mk [DeepNode.Num (applyUnary uop.op n)]
        ⟨rs, filterByIdx ops (fun i => decide (i ∉ used'))⟩
        ⟨[], []⟩
        (prioritized_indices (filterByIdx ops (fun i => decide (i ∉ used')))
          [DeepNode.Num (applyUnary uop.op n)]) ovl := by
  simp only [compile]
  rw [hph, hres]

/-- C7: the constant-fold `compile` pass is idempotent: on any nested
expression satisfying the node/operator count invariant, running
`compile` a second time returns the first result unchanged (same nodes,
operators, unary operator and priority indices). -/
theorem compile_idempotent {T : Type} (x : DeepEx T)
    (hlen : x.nodes.length = x.bin_ops.ops.length + 1) :
    compile (compile x) = compile x := by
  obtain ⟨nodes0, ⟨rs, ops⟩, uop, pr, ovl⟩ := x
  simp only [DeepEx.nodes, DeepEx.bin_ops] at hlen
  have hlen1 : (phaseA nodes0).length = ops.length + 1 := by
    rw [phaseA_eq_map, List.length_map]; exact hlen
  rcases hres : foldLoopFull ops (phaseA nodes0)
    ((prioritized_indices ops (phaseA nodes0)).zip
      (prioritized_indices ops (phaseA nodes0))) [] with ⟨nodes2, rem, used'⟩
  obtain ⟨c1, ⟨i, hi1, hi2, hi3⟩, c3, c4, c5, c6⟩ :=
    foldLoopFull_compile_spec ops (phaseA nodes0)
      (fun n => phaseANode n = n) (fun _ => rfl) hlen1
      (by
        intro n hn
        rw [phaseA_eq_map] at hn
        obtain ⟨m, _hm, rfl⟩ := List.mem_map.mp hn
        exact phaseANode_idem m)
      nodes2 rem used' hres
  have hphase2 : phaseA nodes2 = nodes2 := by
    rw [phaseA_eq_map]
    calc nodes2.map phaseANode = nodes2.map id := List.map_congr_left c5
      _ = nodes2 := List.map_id nodes2
  by_cases hsingle : ∃ n : T, nodes2 = [DeepNode.Num n]
  · obtain ⟨n, rfl⟩ := hsingle
    have husedlen : used'.length = ops.length := by
      simp only [List.length_cons, List.length_nil] at c1
      omega
    have hperm := prioritized_indices_perm ops (phaseA nodes0)
    have hndpri : (prioritized_indices ops (phaseA nodes0)).Nodup :=
      hperm.nodup_iff.mpr (List.nodup_range _)
    have hndu : used'.Nodup := by
      rw [hi2]
      exact hndpri.sublist (List.take_sublist _ _)
    have hbound_u : ∀ u ∈ used', u < ops.length := by
      intro u hu
      rw [hi2] at hu
      exact List.mem_range.mp (hperm.mem_iff.mp
        ((List.take_sublist _ _).subset hu))
    have hops2nil : filterByIdx ops (fun j => decide (j ∉ used')) = [] := by
      apply List.length_eq_zero.mp
      rw [filterByIdx_notMem_length ops used' hndu hbound_u, husedlen]
      omega
    have hcx := compile_eq_of_fold_num nodes0 (phaseA nodes0) rs ops uop pr
      ovl rem used' n rfl hres
    rw [hcx, hops2nil]
    rfl
  · have hns : ∀ n : T, nodes2 ≠ [DeepNode.Num n] := fun n h => hsingle ⟨n, h⟩
    have hcx := compile_eq_of_fold nodes0 (phaseA nodes0) nodes2 rs ops uop pr
      ovl rem used' rfl hres hns
    rw [hcx]
    have hprio2 := run2_prios ops (phaseA nodes0) nodes2 rem used' hlen1 hres
    have hfold2 : foldLoopFull (filterByIdx ops (fun i => decide (i ∉ used')))
        nodes2
        ((prioritized_indices (filterByIdx ops (fun i => decide (i ∉ used')))
          nodes2).zip
         (prioritized_indices (filterByIdx ops (fun i => decide (i ∉ used')))
          nodes2)) [] =
        (nodes2,
         (prioritized_indices (filterByIdx ops (fun i => decide (i ∉ used')))
          nodes2).zip
         (prioritized_indices (filterByIdx ops (fun i => decide (i ∉ used')))
          nodes2), []) := by
      apply foldLoopFull_break
      rw [hprio2]
      cases hrem : rem with
      | nil => left; simp
      | cons p r2 =>
        obtain ⟨b, k⟩ := p
        right
        refine ⟨k, k, (r2.map Prod.snd).zip (r2.map Prod.snd), ?_, ?_⟩
        · simp [List.zip_cons_cons]
        · exact c6 b k r2 hrem
    have hcy := compile_eq_of_fold nodes2 nodes2 nodes2 rs
      (filterByIdx ops (fun i => decide (i ∉ used'))) uop
      (prioritized_indices (filterByIdx ops (fun i => decide (i ∉ used')))
        nodes2) ovl
      ((prioritized_indices (filterByIdx ops (fun i => decide (i ∉ used')))
          nodes2).zip
       (prioritized_indices (filterByIdx ops (fun i => decide (i ∉ used')))
          nodes2)) []
      hphase2 hfold2 hns
    rw [hcy, filterByIdx_all_true _ _ (fun j => by simp)]

theorem deepNodesInv_iff {T : Type} :
    ∀ ns : List (DeepNode T), DeepNodesInv ns ↔ ∀ n ∈ ns, DeepNodeInv n := by
  intro ns
  induction ns with
  | nil => simp [DeepNodesInv]
  | cons n rest ih =>
    simp only [DeepNodesInv, ih, List.mem_cons]
    constructor
    · rintro ⟨h1, h2⟩ m (rfl | hm)
      · exact h1
      · exact h2 m hm
    · intro h
      exact ⟨h n (Or.inl rfl), fun m hm => h m (Or.inr hm)⟩

theorem phaseANode_inv {T : Type} (n : DeepNode T) (h : DeepNodeInv n) :
    DeepNodeInv (phaseANode n) := by
  cases n with
  | Num a => exact h
  | Var i => exact h
  | Expr e =>
    cases e with
    | mk ns bo uo pr ov =>
      cases ns with
      | nil => exact h
      | cons n1 rest =>
        cases rest with
        | nil =>
          cases n1 with
          | Num m =>
            show DeepNodeInv (DeepNode.Num m)
            simp [DeepNodeInv]
          | Var i => exact h
          | Expr e2 => exact h
        | cons n2 rest2 => cases n1 <;> exact h

theorem compile_DeepInv {T : Type} (x : DeepEx T) (h : DeepInv x) :
    DeepInv (compile x) := by
  obtain ⟨nodes0, ⟨rs, ops⟩, uop, pr, ovl⟩ := x
  simp only [DeepInv] at h
  obtain ⟨hlen, hnodes⟩ := h
  have hlen0 : nodes0.length = ops.length + 1 := hlen
  have hlen1 : (phaseA nodes0).length = ops.length + 1 := by
    rw [phaseA_eq_map, List.length_map]; exact hlen0
  rcases hres : foldLoopFull ops (phaseA nodes0)
    ((prioritized_indices ops (phaseA nodes0)).zip
      (prioritized_indices ops (phaseA nodes0))) [] with ⟨nodes2, rem, used'⟩
  obtain ⟨c1, ⟨i, hi1, hi2, hi3⟩, c3, c4, c5, c6⟩ :=
    foldLoopFull_compile_spec ops (phaseA nodes0) DeepNodeInv
      (fun r => by simp [DeepNodeInv]) hlen1
      (by
        intro n hn
        rw [phaseA_eq_map] at hn
        obtain ⟨m, hm, rfl⟩ := List.mem_map.mp hn
        exact phaseANode_inv m ((deepNodesInv_iff nodes0).mp hnodes m hm))
      nodes2 rem used' hres
  have hperm := prioritized_indices_perm ops (phaseA nodes0)
  have hndpri : (prioritized_indices ops (phaseA nodes0)).Nodup :=
    hperm.nodup_iff.mpr (List.nodup_range _)
  have hndu : used'.Nodup := by
    rw [hi2]
    exact hndpri.sublist (List.take_sublist _ _)
  have hbound_u : ∀ u ∈ used', u < ops.length := by
    intro u hu
    rw [hi2] at hu
    exact List.mem_range.mp (hperm.mem_iff.mp
      ((List.take_sublist _ _).subset hu))
  have hol : (filterByIdx ops (fun j => decide (j ∉ used'))).length =
      ops.length - used'.length :=
    filterByIdx_notMem_length ops used' hndu hbound_u
  have husedle : used'.length ≤ ops.length := by
    rw [hi2, List.length_take, hperm.length_eq, List.length_range]
    omega
  by_cases hsingle : ∃ n : T, nodes2 = [DeepNode.Num n]
  · obtain ⟨n, rfl⟩ := hsingle
    rw [compile_eq_of_fold_num nodes0 (phaseA nodes0) rs ops uop pr ovl rem
      used' n rfl hres]
    have husedlen : used'.length = ops.length := by
      simp only [List.length_cons, List.length_nil] at c1
      omega
    have hops2nil : filterByIdx ops (fun j => decide (j ∉ used')) = [] := by
      apply List.length_eq_zero.mp
      rw [hol, husedlen]
      omega
    rw [hops2nil]
    simp [DeepInv, DeepNodesInv, DeepNodeInv]
  · have hns : ∀ n : T, nodes2 ≠ [DeepNode.Num n] := fun n h => hsingle ⟨n, h⟩
    rw [compile_eq_of_fold nodes0 (phaseA nodes0) nodes2 rs ops uop pr ovl
      rem used' rfl hres hns]
    simp only [DeepInv]
    constructor
    · show nodes2.length =
        (filterByIdx ops (fun j => decide (j ∉ used'))).length + 1
      rw [hol]
      omega
    · exact (deepNodesInv_iff nodes2).mpr c5

theorem set_ovl_DeepInv {T : Type} (e : DeepEx T) (oo : OverloadedOps T)
    (h : DeepInv e) : DeepInv (e.set_overloaded_ops oo) := by
  obtain ⟨nodes, bops, uop, pr, ovl⟩ := e
  simp only [DeepEx.set_overloaded_ops]
  simp only [DeepInv] at h ⊢
  exact h

theorem operateBinWith_DeepInv {T : Type} (a b : DeepEx T)
    (bop : BinOpsWithReprs T) (hbop : bop.ops.length = 1)
    (ha : DeepInv a) (hb : DeepInv b) : DeepInv (operateBinWith a b bop) := by
  unfold operateBinWith
  simp only [DeepInv]
  refine ⟨by rw [hbop]; rfl, ?_⟩
  simp only [DeepNodesInv, DeepNodeInv]
  exact ⟨ha, hb, trivial⟩

theorem overloadBin_DeepInv {T : Type} (a b : DeepEx T)
    (pick : OverloadedOps T → Operator T) (r : String)
    (ha : DeepInv a) (hb : DeepInv b) : DeepInv (overloadBin a b pick r) := by
  have h2 : ∀ ob : Option (BinOp T), DeepInv (match ob with
      | some bo => operateBinWith a b { reprs := [r], ops := [bo] }
      | none => a) := by
    intro ob
    cases ob with
    | none => exact ha
    | some bo =>
      exact operateBinWith_DeepInv a b { reprs := [r], ops := [bo] } rfl ha hb
  unfold overloadBin
  cases a.overloaded_ops with
  | none => exact ha
  | some oo => exact h2 (pick oo).bin_op

theorem operate_unary_DeepInv {T : Type} (e : DeepEx T)
    (u : UnaryOpWithReprs T) (h : DeepInv e) :
    DeepInv (operate_unary e u) := by
  unfold operate_unary
  simp only [DeepInv]
  refine ⟨rfl, ?_⟩
  simp only [DeepNodesInv, DeepNodeInv]
  exact ⟨h, trivial⟩

theorem from_node_DeepInv {T : Type} (n : DeepNode T) (oo : OverloadedOps T)
    (h : DeepNodeInv n) : DeepInv (DeepEx.from_node n oo) := by
  unfold DeepEx.from_node
  simp only [DeepInv]
  refine ⟨rfl, ?_⟩
  simp only [DeepNodesInv]
  exact ⟨h, trivial⟩

theorem new_ok_DeepInv {T : Type} (nodes : List (DeepNode T))
    (bops : BinOpsWithReprs T) (uop : UnaryOpWithReprs T) (res : DeepEx T)
    (hnodes : ∀ n ∈ nodes, DeepNodeInv n)
    (hok : DeepEx.new nodes bops uop = .ok res) : DeepInv res := by
  unfold DeepEx.new at hok
  by_cases hc : nodes.length ≠ bops.ops.length + 1
  · rw [if_pos hc] at hok
    exact Except.noConfusion hok
  · rw [if_neg hc] at hok
    injection hok with hok
    subst hok
    apply compile_DeepInv
    obtain ⟨rs, ops⟩ := bops
    simp only [DeepInv]
    push_neg at hc
    exact ⟨hc, (deepNodesInv_iff nodes).mpr hnodes⟩

theorem operate_bin_DeepInv {T : Type} (a b : DeepEx T) (r : String)
    (res : DeepEx T) (ha : DeepInv a) (hb : DeepInv b)
    (hres : operate_bin a b r = some res) : DeepInv res := by
  unfold operate_bin at hres
  rcases hov : a.overloaded_ops with _ | oo
  · rw [hov] at hres
    exact Option.noConfusion hres
  · rw [hov] at hres
    simp only [] at hres
    rcases h2 : oo.by_repr r with _ | op
    · rw [h2] at hres
      exact Option.noConfusion hres
    · rw [h2] at hres
      simp only [] at hres
      rcases h3 : op.bin_op with _ | bo
      · rw [h3] at hres
        exact Option.noConfusion hres
      · rw [h3] at hres
        simp only [] at hres
        have hnew : DeepEx.new [DeepNode.Expr a, DeepNode.Expr b]
            ⟨["+"], [bo]⟩ ⟨[], []⟩ =
            .ok (compile (DeepEx.mk [DeepNode.Expr a, DeepNode.Expr b]
              ⟨["+"], [bo]⟩ ⟨[], []⟩
              (prioritized_indices [bo]
                [DeepNode.Expr a, DeepNode.Expr b]) none)) := by
          unfold DeepEx.new
          rw [if_neg (by simp)]
        rw [hnew] at hres
        injection hres with hres
        subst hres
        apply compile_DeepInv
        apply set_ovl_DeepInv
        apply compile_DeepInv
        simp only [DeepInv]
        refine ⟨rfl, ?_⟩
        simp only [DeepNodesInv, DeepNodeInv]
        exact ⟨ha, hb, trivial⟩

theorem reachable_DeepInv {T : Type} (e : DeepEx T) (h : ReachableDeep e) :
    DeepInv e := by
  induction h with
  | new nodes bops uop res hsub hok ih =>
    apply new_ok_DeepInv nodes bops uop res ?_ hok
    intro n hn
    cases n with
    | Num a => simp [DeepNodeInv]
    | Var i => simp [DeepNodeInv]
    | Expr e2 =>
      show DeepNodeInv (DeepNode.Expr e2)
      simp only [DeepNodeInv]
      exact ih e2 hn
  | compiled e2 _ ih => exact compile_DeepInv e2 ih
  | op_bin a b r res _ _ hres iha ihb =>
    exact operate_bin_DeepInv a b r res iha ihb hres
  | set_ovl e2 oo _ ih => exact set_ovl_DeepInv e2 oo ih
  | from_node_num v oo => exact from_node_DeepInv _ oo (by simp [DeepNodeInv])
  | from_node_var i oo => exact from_node_DeepInv _ oo (by simp [DeepNodeInv])
  | unary e2 u _ ih => exact operate_unary_DeepInv e2 u ih
  | overload a b pick r _ _ iha ihb => exact overloadBin_DeepInv a b pick r iha ihb
  | op_with a b bop hbop _ _ iha ihb =>
    exact operateBinWith_DeepInv a b bop hbop iha ihb

theorem compile_idempotent_witness :
    idemEx.nodes.length = idemEx.bin_ops.ops.length + 1 ∧
    compile (compile idemEx) = compile idemEx :=
  ⟨by decide, compile_idempotent idemEx (by decide)⟩

/-- C5: `DeepEx::new` returns an error exactly when the node count does
not exceed the binary-operator count by one, and every expression
reachable through the public operations (construction by `new`,
`compile`, the overloaded arithmetic, the differentiator's constructors)
satisfies `nodes.len() = ops.len() + 1` at every nesting level. -/
theorem deepex_new_rejects_and_reachable_invariant {T : Type} :
    (∀ (nodes : List (DeepNode T)) (bops : BinOpsWithReprs T)
        (uop : UnaryOpWithReprs T),
      (∃ err, DeepEx.new nodes bops uop = Except.error err) ↔
        nodes.length ≠ bops.ops.length + 1) ∧
    ∀ e : DeepEx T, ReachableDeep e → DeepInv e := by
  constructor
  · intro nodes bops uop
    constructor
    · rintro ⟨err, herr⟩
      intro hc
      unfold DeepEx.new at herr
      rw [if_neg (fun h => h hc)] at herr
      exact Except.noConfusion herr
    · intro hne
      refine ⟨⟨"mismatch between number of nodes and binary operators"⟩, ?_⟩
      unfold DeepEx.new
      rw [if_pos hne]
  · exact reachable_DeepInv

theorem deepex_new_rejects_and_reachable_invariant_witness :
    DeepInv (compile (DeepEx.from_node (DeepNode.Num (3 : Int)) ooInt)) :=
  (@deepex_new_rejects_and_reachable_invariant Int).2 _
    (ReachableDeep.compiled _ (ReachableDeep.from_node_num 3 ooInt))

end Exmex
